import Mathlib

/-!
# ksecure: flash-encryption transform and container

A shallow embedding of `src/ksecure.go` and theorems about it.

Conventions of the embedding:

* a Go `[]byte` is a `List Nat`; every arithmetic result stored into a byte is
  reduced `% 256` where the source computes in the `byte` type;
* a Go `int` is an `Int`.  The only uses of `int` values that reach the results
  are equality tests, `% 16`, `% 32`, `& (1 << i)` for `i < 24` and list
  indexing, all of which are unchanged by 64-bit wrap-around, so no reduction
  `% 2^64` is needed;
* a function that may panic or loop forever returns `Option` (`none`) or
  `Outcome` (`panic`, `diverge`); an `error` return value is `Outcome.error`;
* the AES block cipher and HMAC-SHA256 come from the Go standard library and
  are parameters (`Primitives`).
-/

namespace Ksecure

/-! ## Results -/

/-- The `error` values `FlashEncryptionOperation` can return. -/
inductive Error where
  /-- `hex.DecodeString` rejected the key string. -/
  | hexDecode
  /-- "Key file contains wrong length (%d bytes), 24 or 32 expected." -/
  | keyLength (n : Nat)
  /-- "Starting flash address 0x%x must be a multiple of 16". -/
  | misalignedAddress (flashAddress : Int)
  /-- A `Seek` or `Read` of the input stream failed. -/
  | io
  /-- "Data length is not a multiple of 16 bytes". -/
  | shortBlock
  /-- `aes.NewCipher` rejected the key size. -/
  | keySize (n : Nat)
  deriving DecidableEq

/-- How a call ends: a normal return (`ok`), a returned `error`, a run-time
panic, or no return at all (`diverge`, the fuel of a loop ran out). -/
inductive Outcome (α : Type) where
  | ok (val : α)
  | error (e : Error)
  | panic
  | diverge
  deriving DecidableEq

/-! ## makeRange and flashEncryptionTweakRange -/

/-- The loop `for i := start; i != stop; i += step { s = append(s, i) }` of
`makeRange`, with fuel; `none` when the fuel runs out. -/
def makeRangeLoop (stop step : Int) : Nat → Int → List Int → Option (List Int)
  | 0, _, _ => none
  | fuel + 1, i, s =>
    if i != stop then makeRangeLoop stop step fuel (i + step) (s ++ [i]) else some s

/-- The three-argument body of `makeRange`: `none` for `panic("step cannot be 0")`
and for a loop that never reaches `stop`. -/
def makeRange3 (start stop step : Int) : Option (List Int) :=
  if step == 0 then none
  else
    let step := if start < stop && step < 0 then -step else step
    let step := if start > stop && step > 0 then -step else step
    makeRangeLoop stop step ((stop - start).natAbs + 1) start []

/-- `makeRange(n, args...)`: one argument means `makeRange(0, n)`, two mean
`makeRange(n, args[0], 1)`. -/
def makeRange (n : Int) (args : List Int) : Option (List Int) :=
  match args with
  | [] => makeRange3 0 n 1
  | [stop] => makeRange3 n stop 1
  | stop :: step :: _ => makeRange3 n stop step

/-- `flashEncryptionTweakRange(flashCryptConfig)`. -/
def flashEncryptionTweakRange (flashCryptConfig : Int) : Option (List Int) := do
  let tweakRange : List Int := []
  let tweakRange ←
    if Int.land flashCryptConfig 1 != 0 then
      (makeRange 67 []).map (fun r => tweakRange ++ r)
    else pure tweakRange
  let tweakRange ←
    if Int.land flashCryptConfig 2 != 0 then
      (makeRange 67 [132]).map (fun r => tweakRange ++ r)
    else pure tweakRange
  let tweakRange ←
    if Int.land flashCryptConfig 4 != 0 then
      (makeRange 132 [195]).map (fun r => tweakRange ++ r)
    else pure tweakRange
  let tweakRange ←
    if Int.land flashCryptConfig 8 != 0 then
      (makeRange 195 [256]).map (fun r => tweakRange ++ r)
    else pure tweakRange
  pure tweakRange

/-! ## The tweak pattern and flashEncryptionTweakKey -/

/-- The table `_FLASH_ENCRYPTION_TWEAK_PATTERN`, row by row as in the source. -/
def _FLASH_ENCRYPTION_TWEAK_PATTERN : List Nat := [
  23, 22, 21, 20, 19, 18, 17, 16, 15, 14, 13, 12, 11, 10, 9, 8, 7, 6, 5,
  23, 22, 21, 20, 19, 18, 17, 16, 15, 14, 13, 12, 11, 10, 9, 8, 7, 6, 5,
  23, 22, 21, 20, 19, 18, 17, 16, 15, 14, 13, 12, 11, 10, 9, 8, 7, 6, 5,
  14, 13, 12, 11, 10, 9, 8, 7, 6, 5,
  23, 22, 21, 20, 19, 18, 17, 16, 15, 14, 13, 12, 11, 10, 9, 8, 7, 6, 5,
  23, 22, 21, 20, 19, 18, 17, 16, 15, 14, 13, 12, 11, 10, 9, 8, 7, 6, 5,
  23, 22, 21, 20, 19, 18, 17, 16, 15, 14, 13, 12, 11, 10, 9, 8, 7, 6, 5,
  12, 11, 10, 9, 8, 7, 6, 5,
  23, 22, 21, 20, 19, 18, 17, 16, 15, 14, 13, 12, 11, 10, 9, 8, 7, 6, 5,
  23, 22, 21, 20, 19, 18, 17, 16, 15, 14, 13, 12, 11, 10, 9, 8, 7, 6, 5,
  23, 22, 21, 20, 19, 18, 17, 16, 15, 14, 13, 12, 11, 10, 9, 8, 7, 6, 5,
  10, 9, 8, 7, 6, 5,
  23, 22, 21, 20, 19, 18, 17, 16, 15, 14, 13, 12, 11, 10, 9, 8, 7, 6, 5,
  23, 22, 21, 20, 19, 18, 17, 16, 15, 14, 13, 12, 11, 10, 9, 8, 7, 6, 5,
  23, 22, 21, 20, 19, 18, 17, 16, 15, 14, 13, 12, 11, 10, 9, 8, 7, 6, 5,
  8, 7, 6, 5]

/-- The slice `offsetBits`: `offsetBits[i] = (offset & (1 << i)) != 0` for
`i < 24`. -/
def offsetBits (offset : Int) : List Bool :=
  (List.range 24).map (fun i => Int.land offset (((1 <<< i : Nat) : Int)) != 0)

/-- One iteration of `for _, bit := range tweakRange`: `none` is an index out
of range (in the pattern table, in `offsetBits` or in `tweakedKey`). -/
def tweakStep (offsetBits : List Bool) (tweakedKey : List Nat) (bit : Int) :
    Option (List Nat) :=
  if bit < 0 then none
  else
    match _FLASH_ENCRYPTION_TWEAK_PATTERN[bit.toNat]? with
    | none => none
    | some p =>
      match offsetBits[p]? with
      | none => none
      | some false => some tweakedKey
      | some true =>
        match tweakedKey[bit.toNat / 8]? with
        | none => none
        | some x =>
          some (tweakedKey.set (bit.toNat / 8) ((x ^^^ (1 <<< (7 - bit.toNat % 8))) % 256))

/-- `flashEncryptionTweakKey(key, offset, tweakRange)`; `none` when it panics. -/
def flashEncryptionTweakKey (key : List Nat) (offset : Int) (tweakRange : List Int) :
    Option (List Nat) :=
  let tweakedKey := key
  tweakRange.foldlM (tweakStep (offsetBits offset)) tweakedKey

/-! ## Key loading -/

/-- One hexadecimal digit of `encoding/hex` (both cases are accepted). -/
def fromHexChar (c : Char) : Option Nat :=
  if '0' ≤ c ∧ c ≤ '9' then some (c.toNat - '0'.toNat)
  else if 'a' ≤ c ∧ c ≤ 'f' then some (c.toNat - 'a'.toNat + 10)
  else if 'A' ≤ c ∧ c ≤ 'F' then some (c.toNat - 'A'.toNat + 10)
  else none

/-- The standard library's `hex.DecodeString` on the characters of the string:
`none` for a character that is no hexadecimal digit and for an odd length. -/
def hexDecode : List Char → Option (List Nat)
  | [] => some []
  | [_] => none
  | p :: q :: rest =>
    match fromHexChar p, fromHexChar q, hexDecode rest with
    | some a, some b, some r => some (((a <<< 4) ||| b) :: r)
    | _, _, _ => none

/-- `loadHardwareKey` on the bytes `ioutil.ReadAll` returns (reading a
`bytes.Buffer` does not fail). -/
def loadHardwareKey (key : List Nat) : Outcome (List Nat) :=
  if key.length ≠ 24 ∧ key.length ≠ 32 then .error (.keyLength key.length)
  else if key.length = 24 then .ok (key ++ (key.drop 8).take 8)
  else .ok key

/-! ## reverse -/

/-- The loop `for i, j := 0, len(b)-1; i < j; i, j = i+1, j-1` of `reverse`,
swapping `b[i]` and `b[j]`. -/
def reverseLoop : Nat → List Nat → Nat → Nat → List Nat
  | 0, b, _, _ => b
  | fuel + 1, b, i, j =>
    if i < j then
      reverseLoop fuel ((b.set i (b.getD j 0)).set j (b.getD i 0)) (i + 1) (j - 1)
    else b

/-- `reverse(b)`. -/
def reverse (b : List Nat) : List Nat :=
  reverseLoop b.length b 0 (b.length - 1)

/-! ## Standard-library primitives -/

/-- The primitives taken from the Go standard library: the AES block cipher
(`Encrypt key block`, `Decrypt key block` on one 16-byte block, for an
expanded key) and HMAC-SHA256 (`hmacSha256 key message`, a 32-byte tag). -/
structure Primitives where
  Encrypt : List Nat → List Nat → List Nat
  Decrypt : List Nat → List Nat → List Nat
  hmacSha256 : List Nat → List Nat → List Nat
  Encrypt_length : ∀ key block, block.length = 16 → (Encrypt key block).length = 16
  Decrypt_length : ∀ key block, block.length = 16 → (Decrypt key block).length = 16
  hmacSha256_length : ∀ key msg, (hmacSha256 key msg).length = 32

/-- `aes.NewCipher(key)`: the cipher instance is represented by its key; a key
that is not 16, 24 or 32 bytes long is a `KeySizeError`. -/
def NewCipher (key : List Nat) : Outcome (List Nat) :=
  if key.length = 16 ∨ key.length = 24 ∨ key.length = 32 then .ok key
  else .error (.keySize key.length)

/-- `c.Encrypt(block, block)` / `c.Decrypt(block, block)` of `crypto/aes` with
`dst = src = block`: it panics on fewer than 16 bytes, transforms the first 16
bytes in place and leaves the rest of the slice as it is. -/
def cryptInPlace (f : List Nat → List Nat) (block : List Nat) : Outcome (List Nat) :=
  if block.length < 16 then .panic
  else .ok (f (block.take 16) ++ block.drop 16)

/-! ## Streams -/

/-- The input `io.ReadSeeker`: a file of bytes `data` with read position `pos`.
`calls` counts the `Seek`/`Read` calls made so far; `failAt = some k` makes
call number `k` (counting from 0) fail with an I/O error. -/
structure InputFile where
  data : List Nat
  pos : Nat
  calls : Nat
  failAt : Option Nat
  deriving DecidableEq

/-- What `Read` returned: `io.EOF`, another error, or the bytes read. -/
inductive ReadResult where
  | eof
  | err
  | data (bytes : List Nat)
  deriving DecidableEq

/-- `inputFile.Seek(0, io.SeekCurrent)`: the position, or `none` on error. -/
def InputFile.Seek (f : InputFile) : Option Nat × InputFile :=
  if f.failAt = some f.calls then (none, { f with calls := f.calls + 1 })
  else (some f.pos, { f with calls := f.calls + 1 })

/-- `inputFile.Read(block)` for a buffer of `len` bytes, as a regular file or a
`bytes.Reader` does it: `io.EOF` at the end of the data, else as many bytes as
are left, at most `len`. -/
def InputFile.Read (f : InputFile) (len : Nat) : ReadResult × InputFile :=
  if f.failAt = some f.calls then (.err, { f with calls := f.calls + 1 })
  else if f.data.length ≤ f.pos then (.eof, { f with calls := f.calls + 1 })
  else
    let bytes := (f.data.drop f.pos).take len
    (.data bytes, { f with pos := f.pos + bytes.length, calls := f.calls + 1 })

/-- `getInputFilePosition(inputFile)`. -/
def getInputFilePosition (inputFile : InputFile) : Option Nat × InputFile :=
  inputFile.Seek

/-- The output `io.WriteSeeker`: `writeCalls` lists the arguments of the
`Write` calls made so far, `written` the bytes the sink accepted.
`failAfter = some k` makes a `Write` accept at most `k` bytes and then report
an error. -/
structure OutputFile where
  written : List Nat
  writeCalls : List (List Nat)
  failAfter : Option Nat
  deriving DecidableEq

/-- `outputFile.Write(p)`: the error it reports (if any) and the sink after. -/
def OutputFile.Write (f : OutputFile) (p : List Nat) : Option Error × OutputFile :=
  match f.failAfter with
  | none => (none, { f with written := f.written ++ p, writeCalls := f.writeCalls ++ [p] })
  | some k =>
    (some .io, { f with written := f.written ++ p.take k, writeCalls := f.writeCalls ++ [p] })

/-! ## The transform loop -/

/-- Lines 166-172: when `blockOffs%32 == 0 || aes == nil` a key is derived at
`blockOffs` and a cipher is constructed from it, otherwise the cipher in `aes`
is kept.  (`%` of Go truncates, hence `Int.tmod`.) -/
def rekey (key : List Nat) (blockOffs : Int) (tweakRange : List Int)
    (aes : Option (List Nat)) : Outcome (List Nat) :=
  match decide (blockOffs.tmod 32 = 0), aes with
  | false, some c => .ok c
  | _, _ =>
    match flashEncryptionTweakKey key blockOffs tweakRange with
    | none => .panic
    | some blockKey => NewCipher blockKey

/-- Lines 174-180: reverse, run the cipher in the direction opposite to the
one asked for, reverse again. -/
def cryptBlock (P : Primitives) (aes : List Nat) (doDecrypt : Bool) (block : List Nat) :
    Outcome (List Nat) :=
  let block := reverse block
  match cryptInPlace (if doDecrypt then P.Encrypt aes else P.Decrypt aes) block with
  | .ok block => .ok (reverse block)
  | .error e => .error e
  | .panic => .panic
  | .diverge => .diverge

/-- The variables of the loop of `FlashEncryptionOperation`: the input stream,
the cipher instance `aes` (`none` is `nil`) and `outputFileBuffer`.  `keyLog`
is a ghost variable: the key of the cipher used for each block so far. -/
structure LoopState where
  inputFile : InputFile
  aes : Option (List Nat)
  outputFileBuffer : List Nat
  keyLog : List (List Nat)
  deriving DecidableEq

/-- The `for` loop of `FlashEncryptionOperation` (lines 143-185), with fuel:
how the loop ends and the state it ends in. -/
def transformLoop (P : Primitives) (key : List Nat) (flashAddress : Int)
    (tweakRange : List Int) (doDecrypt : Bool) : Nat → LoopState → Outcome Unit × LoopState
  | 0, s => (.diverge, s)
  | fuel + 1, s =>
    match getInputFilePosition s.inputFile with
    | (none, f1) => (.error .io, { s with inputFile := f1 })
    | (some pos, f1) =>
      let blockOffs := flashAddress + (pos : Int)
      match f1.Read 16 with
      | (.eof, f2) => (.ok (), { s with inputFile := f2 })
      | (.err, f2) => (.error .io, { s with inputFile := f2 })
      | (.data bytes, f2) =>
        let n := bytes.length
        -- `block` was made with 16 zero bytes and `Read` filled its first `n`
        let block := bytes ++ List.replicate (16 - n) 0
        if n < 16 ∧ doDecrypt = true then (.error .shortBlock, { s with inputFile := f2 })
        else
          let pad := 16 - n
          let block := if n < 16 then block ++ List.replicate pad 0 else block
          match rekey key blockOffs tweakRange s.aes with
          | .error e => (.error e, { s with inputFile := f2 })
          | .panic => (.panic, { s with inputFile := f2 })
          | .diverge => (.diverge, { s with inputFile := f2 })
          | .ok aes =>
            match cryptBlock P aes doDecrypt block with
            | .error e => (.error e, { s with inputFile := f2, aes := some aes })
            | .panic => (.panic, { s with inputFile := f2, aes := some aes })
            | .diverge => (.diverge, { s with inputFile := f2, aes := some aes })
            | .ok block =>
              -- `Write` of a `bytes.Buffer` always returns a nil error
              transformLoop P key flashAddress tweakRange doDecrypt fuel
                { inputFile := f2, aes := some aes,
                  outputFileBuffer := s.outputFileBuffer ++ block,
                  keyLog := s.keyLog ++ [aes] }

/-! ## The container -/

/-- `binary.LittleEndian.PutUint32(b, uint32(v))`. -/
def PutUint32 (v : Nat) : List Nat :=
  let v := v % 2 ^ 32
  [v % 256, (v >>> 8) % 256, (v >>> 16) % 256, (v >>> 24) % 256]

/-- `uint32(s*100)` for `s = strconv.ParseFloat("4.05", 32)`: the float is
`4.05000019073486328125`, so the product truncates to 405 (and parsing the
constant does not fail). -/
def firmwareVersionTimes100 : Nat := 405

/-- What a call of `FlashEncryptionOperation` leaves behind: the returned
`error` (`ok ()` is `nil`), the two streams, and as ghost values the
`outputFileBuffer` and the key log at the end of the loop. -/
structure Run where
  ret : Outcome Unit
  inputFile : InputFile
  outputFile : OutputFile
  outputFileBuffer : List Nat
  keyLog : List (List Nat)
  deriving DecidableEq

set_option linter.unusedVariables false in
/-- `FlashEncryptionOperation(outputFile, inputFile, flashAddress, keyFile,
hashkey, flashCryptConf, doDecrypt)`. -/
def FlashEncryptionOperation (P : Primitives) (outputFile : OutputFile)
    (inputFile : InputFile) (flashAddress : Int) (keyFile : String) (hashkey : List Nat)
    (flashCryptConf : Int) (doDecrypt : Bool) : Run :=
  match hexDecode keyFile.toList with
  | none => ⟨.error .hexDecode, inputFile, outputFile, [], []⟩
  | some keyBytes =>
    match loadHardwareKey keyBytes with
    | .error e => ⟨.error e, inputFile, outputFile, [], []⟩
    | .panic => ⟨.panic, inputFile, outputFile, [], []⟩
    | .diverge => ⟨.diverge, inputFile, outputFile, [], []⟩
    | .ok key =>
      if flashAddress.tmod 16 ≠ 0 then
        ⟨.error (.misalignedAddress flashAddress), inputFile, outputFile, [], []⟩
      else
        match flashEncryptionTweakRange flashCryptConf with
        | none => ⟨.panic, inputFile, outputFile, [], []⟩
        | some tweakRange =>
          match transformLoop P key flashAddress tweakRange doDecrypt
              (inputFile.data.length + 1) ⟨inputFile, none, [], []⟩ with
          | (.error e, s) => ⟨.error e, s.inputFile, outputFile, s.outputFileBuffer, s.keyLog⟩
          | (.panic, s) => ⟨.panic, s.inputFile, outputFile, s.outputFileBuffer, s.keyLog⟩
          | (.diverge, s) => ⟨.diverge, s.inputFile, outputFile, s.outputFileBuffer, s.keyLog⟩
          | (.ok _, s) =>
            let outputFileBuffer := s.outputFileBuffer
            let sizeBytes := PutUint32 outputFileBuffer.length
            let final_outputFileBuffer : List Nat := []
            let final_outputFileBuffer := final_outputFileBuffer ++ sizeBytes
            let versionBytes := PutUint32 firmwareVersionTimes100
            let final_outputFileBuffer := final_outputFileBuffer ++ sizeBytes
            let final_outputFileBuffer := final_outputFileBuffer ++ outputFileBuffer
            let hash := P.hmacSha256 hashkey outputFileBuffer
            let final_outputFileBuffer := final_outputFileBuffer ++ hash
            -- the values `Write` returns are dropped
            let w := outputFile.Write final_outputFileBuffer
            ⟨.ok (), s.inputFile, w.2, outputFileBuffer, s.keyLog⟩

/-! ## A concrete instance of the primitives, for evaluation -/

/-- A toy block cipher and tag in place of AES and HMAC-SHA256: `Encrypt` xors
every byte with the first key byte and rotates the block by one, `Decrypt`
undoes it; the tag is 32 copies of a checksum. -/
def toyPrimitives : Primitives where
  Encrypt := fun key block => (block.map (fun x => x ^^^ key.headD 0)).rotate 1
  Decrypt := fun key block => (block.rotate 15).map (fun x => x ^^^ key.headD 0)
  hmacSha256 := fun key msg => List.replicate 32 ((key.sum + msg.sum) % 256)
  Encrypt_length := by intro key block h; simp [h]
  Decrypt_length := by intro key block h; simp [h]
  hmacSha256_length := by intro key msg; simp

/-- The key string of `src/example/example.go`. -/
def exampleKeyFile : String :=
  "02d20bbd7e394ad5999a4cebabac9619732c343a4cac99470c03e23ba2bdc2bc"

/-- An input stream over `data`, at position 0, that never fails. -/
def InputFile.ofBytes (data : List Nat) : InputFile := ⟨data, 0, 0, none⟩

/-- An empty output sink that never fails. -/
def OutputFile.empty : OutputFile := ⟨[], [], none⟩

/-- The bytes of `exampleKeyFile`. -/
def exampleKey : List Nat :=
  [2, 210, 11, 189, 126, 57, 74, 213, 153, 154, 76, 235, 171, 172, 150, 25, 115, 44, 52, 58,
   76, 172, 153, 71, 12, 3, 226, 59, 162, 189, 194, 188]

/-! ## Notions used to state and prove the theorems -/

/-- Key bit number `c`: bit `7 - c % 8` of byte `c / 8` of a key. -/
def keyBit (k : List Nat) (c : Nat) : Bool := (k.getD (c / 8) 0).testBit (7 - c % 8)

/-- Whether the loop of `flashEncryptionTweakKey` flips key bit `b` when it
meets `b` in the tweak range: bit `_FLASH_ENCRYPTION_TWEAK_PATTERN[b]` of the
offset. -/
def gate (offset : Int) (b : Nat) : Bool :=
  offset.testBit (_FLASH_ENCRYPTION_TWEAK_PATTERN.getD b 0)

/-- The key after the update `tweakedKey[b/8] ^= 1 << (7 - (b % 8))`. -/
def flipBit (k : List Nat) (b : Nat) : List Nat :=
  k.set (b / 8) ((k.getD (b / 8) 0 ^^^ (1 <<< (7 - b % 8))) % 256)

/-- The key `flashEncryptionTweakKey` derives at `offset` (`[]` if it panics). -/
def blockKey (key : List Nat) (tweakRange : List Int) (offset : Int) : List Nat :=
  (flashEncryptionTweakKey key offset tweakRange).getD []

/-- What `cryptBlock` leaves in a block of at least 16 bytes. -/
def cryptBytes (P : Primitives) (aes : List Nat) (doDecrypt : Bool) (block : List Nat) :
    List Nat :=
  reverse ((if doDecrypt then P.Encrypt aes else P.Decrypt aes) ((reverse block).take 16)
    ++ (reverse block).drop 16)

/-- The first `m` 16-byte blocks of `data`, each transformed under the key
derived at its own offset, the first block being at offset `off`. -/
def transformBlocks (P : Primitives) (key : List Nat) (tweakRange : List Int)
    (doDecrypt : Bool) : Nat → Int → List Nat → List Nat
  | 0, _, _ => []
  | m + 1, off, data =>
    cryptBytes P (blockKey key tweakRange off) doDecrypt (data.take 16)
      ++ transformBlocks P key tweakRange doDecrypt m (off + 16) (data.drop 16)

/-- The keys derived at the offsets `off`, `off + 16`, ... of `m` blocks. -/
def blockKeys (key : List Nat) (tweakRange : List Int) : Nat → Int → List (List Nat)
  | 0, _ => []
  | m + 1, off => blockKey key tweakRange off :: blockKeys key tweakRange m (off + 16)

/-- What the loop emits for a final block of `n < 16` bytes `tail` when
encrypting: the block of 16 bytes with `16 - n` more bytes appended. -/
def shortBlock (P : Primitives) (key : List Nat) (tweakRange : List Int) (off : Int)
    (tail : List Nat) : List Nat :=
  cryptBytes P (blockKey key tweakRange off) false
    (tail ++ List.replicate (16 - tail.length) 0 ++ List.replicate (16 - tail.length) 0)

/-- The cipher instance `aes` is in step with the offset `off` of the next
block: it is `nil`, or the next block re-keys, or it is keyed with the key
derived at `off`. -/
def AesInv (key : List Nat) (tweakRange : List Int) (aes : Option (List Nat)) (off : Int) :
    Prop :=
  aes = none ∨ off % 32 = 0 ∨ aes = some (blockKey key tweakRange off)

/-- The integers `a, a + 1, ..., b - 1`. -/
def intRange (a b : Nat) : List Int := (List.range' a (b - a)).map Int.ofNat

/-- The bytes `FlashEncryptionOperation` passes to `outputFile.Write` for a
payload. -/
def container (P : Primitives) (hashkey : List Nat) (payload : List Nat) : List Nat :=
  PutUint32 payload.length ++ PutUint32 payload.length ++ payload
    ++ P.hmacSha256 hashkey payload

/-- The payload of a run over `data` that does not stop with an error. -/
def payloadOf (P : Primitives) (key : List Nat) (tweakRange : List Int) (doDecrypt : Bool)
    (A : Int) (data : List Nat) : List Nat :=
  transformBlocks P key tweakRange doDecrypt (data.length / 16) A
      (data.take (16 * (data.length / 16)))
    ++ (if data.drop (16 * (data.length / 16)) = [] ∨ doDecrypt = true then []
        else shortBlock P key tweakRange (A + 16 * ((data.length / 16 : Nat) : Int))
          (data.drop (16 * (data.length / 16))))

/-- The ghost key log of a run over `data`: one key per block processed, each
the key derived at the block's own offset. -/
def keysOf (key : List Nat) (tweakRange : List Int) (doDecrypt : Bool) (A : Int)
    (data : List Nat) : List (List Nat) :=
  blockKeys key tweakRange (data.length / 16) A
    ++ (if data.drop (16 * (data.length / 16)) = [] ∨ doDecrypt = true then []
        else [blockKey key tweakRange (A + 16 * ((data.length / 16 : Nat) : Int))])

/-! # Theorems -/

/-! ## Bits of the offset and the pattern table -/

theorem nat_land_two_pow_ne_zero (m p : Nat) : (m &&& 2 ^ p != 0) = m.testBit p := by
  rw [Nat.and_two_pow]
  cases h : m.testBit p <;> simp

theorem nat_ldiff_two_pow (m p : Nat) : (Nat.ldiff (2 ^ p) m != 0) = !m.testBit p := by
  have h : Nat.ldiff (2 ^ p) m = (!m.testBit p).toNat * 2 ^ p := by
    apply Nat.eq_of_testBit_eq
    intro i
    rw [Nat.testBit_ldiff, Nat.testBit_two_pow]
    by_cases hi : p = i
    · subst hi
      cases m.testBit p <;> simp
    · cases hm : m.testBit p <;> simp [hi, Nat.testBit_two_pow]
  rw [h]
  cases m.testBit p <;> simp

theorem int_land_two_pow (o : Int) (p : Nat) :
    (Int.land o (((1 <<< p : Nat) : Int)) != 0) = o.testBit p := by
  rw [Nat.one_shiftLeft]
  cases o with
  | ofNat m =>
    show ((((m &&& 2 ^ p : Nat) : Int)) != 0) = m.testBit p
    rw [← nat_land_two_pow_ne_zero]
    cases h : (m &&& 2 ^ p) <;> simp
    omega
  | negSucc m =>
    show ((((Nat.ldiff (2 ^ p) m : Nat) : Int)) != 0) = !m.testBit p
    rw [← nat_ldiff_two_pow]
    cases h : (Nat.ldiff (2 ^ p) m) <;> simp
    omega

theorem mem_intRange (a b : Nat) (x : Int) (h : x ∈ intRange a b) : (a : Int) ≤ x ∧ x < b := by
  unfold intRange at h
  rw [List.mem_map] at h
  obtain ⟨n, hn, rfl⟩ := h
  rw [List.mem_range'_1] at hn
  simp only [Int.ofNat_eq_coe]
  omega

/-- Entry `p` of `offsetBits` is bit `p` of the offset (two's complement). -/
theorem offsetBits_getElem? (offset : Int) (p : Nat) (hp : p < 24) :
    (offsetBits offset)[p]? = some (offset.testBit p) := by
  unfold offsetBits
  rw [List.getElem?_map, List.getElem?_range hp]
  simp [int_land_two_pow]

theorem offsetBits_getElem?_none (offset : Int) (p : Nat) (hp : 24 ≤ p) :
    (offsetBits offset)[p]? = none := by
  unfold offsetBits
  simp [hp]

set_option maxRecDepth 100000 in
theorem pattern_length : _FLASH_ENCRYPTION_TWEAK_PATTERN.length = 256 := by decide

set_option maxRecDepth 100000 in
theorem pattern_all_bounds :
    ∀ v ∈ _FLASH_ENCRYPTION_TWEAK_PATTERN, 5 ≤ v ∧ v ≤ 23 := by
  decide

/-- The pattern table has 256 entries, all between 5 and 23. -/
theorem pattern_getElem? (b : Nat) (hb : b < 256) :
    ∃ p, _FLASH_ENCRYPTION_TWEAK_PATTERN[b]? = some p ∧ 5 ≤ p ∧ p ≤ 23 := by
  have hlt : b < _FLASH_ENCRYPTION_TWEAK_PATTERN.length := by rw [pattern_length]; exact hb
  refine ⟨_FLASH_ENCRYPTION_TWEAK_PATTERN[b], List.getElem?_eq_getElem hlt, ?_⟩
  exact pattern_all_bounds _ (List.getElem_mem hlt)

theorem pattern_getElem?_none (b : Nat) (hb : 256 ≤ b) :
    _FLASH_ENCRYPTION_TWEAK_PATTERN[b]? = none := by
  apply List.getElem?_eq_none
  rw [pattern_length]; exact hb


/-! ## The loop of flashEncryptionTweakKey -/

theorem tweakStep_eq (offset : Int) (k : List Nat) (bit : Int)
    (hk : k.length = 32) (h0 : 0 ≤ bit) (h256 : bit < 256) :
    tweakStep (offsetBits offset) k bit =
      some (if gate offset bit.toNat then flipBit k bit.toNat else k) := by
  have hb : bit.toNat < 256 := by omega
  obtain ⟨p, hp, h5, h23⟩ := pattern_getElem? bit.toNat hb
  have hgate : gate offset bit.toNat = offset.testBit p := by
    unfold gate
    rw [List.getD_eq_getElem?_getD, hp]; rfl
  have hx : k[bit.toNat / 8]? = some (k.getD (bit.toNat / 8) 0) := by
    rw [List.getD_eq_getElem?_getD]
    have : bit.toNat / 8 < k.length := by omega
    rw [List.getElem?_eq_getElem this]; rfl
  unfold tweakStep
  rw [if_neg (by omega), hp]
  simp only []
  rw [offsetBits_getElem? offset p (by omega), hgate]
  cases offset.testBit p
  · simp
  · simp only [hx, if_true, flipBit]

theorem flipBit_length (k : List Nat) (b : Nat) : (flipBit k b).length = k.length := by
  simp [flipBit]

theorem flipBit_bytes (k : List Nat) (b : Nat) (h : ∀ x ∈ k, x < 256) :
    ∀ x ∈ flipBit k b, x < 256 := by
  intro x hx
  unfold flipBit at hx
  rcases List.mem_or_eq_of_mem_set hx with h1 | h1
  · exact h x h1
  · rw [h1]; exact Nat.mod_lt _ (by norm_num)

theorem keyBit_flipBit (k : List Nat) (b c : Nat) (hk : k.length = 32)
    (hb : b < 256) :
    keyBit (flipBit k b) c = xor (keyBit k c) (decide (c = b)) := by
  unfold keyBit flipBit
  by_cases hq : c / 8 = b / 8
  · rw [hq]
    rw [List.getD_eq_getElem?_getD, List.getElem?_set_self (by omega)]
    simp only [Option.getD_some]
    have h8 : (256 : Nat) = 2 ^ 8 := by norm_num
    rw [h8, Nat.testBit_mod_two_pow, Nat.testBit_xor, Nat.one_shiftLeft, Nat.testBit_two_pow]
    have hj : 7 - c % 8 < 8 := by omega
    have : (7 - b % 8 = 7 - c % 8) ↔ c = b := by omega
    simp only [hj, decide_True, Bool.true_and, this, List.getD_eq_getElem?_getD]
  · rw [List.getD_eq_getElem?_getD, List.getElem?_set_ne (by omega)]
    have : c ≠ b := by intro h; exact hq (by rw [h])
    simp [this, List.getD_eq_getElem?_getD]

/-- The loop of `flashEncryptionTweakKey` on a 32-byte key and a range with
entries in 0..255 ends without a panic, keeps length and byte range, and
flips key bit `c` once for every occurrence of `c` that is gated in. -/
theorem tweakFold_spec (offset : Int) :
    ∀ (range : List Int) (k : List Nat), k.length = 32 →
      (∀ b ∈ range, 0 ≤ b ∧ b < 256) →
      ∃ k2, range.foldlM (tweakStep (offsetBits offset)) k = some k2 ∧ k2.length = 32 ∧
        ((∀ x ∈ k, x < 256) → ∀ x ∈ k2, x < 256) ∧
        ∀ c, c < 256 →
          keyBit k2 c = xor (keyBit k c)
            (decide (range.count (c : Int) % 2 = 1) && gate offset c) := by
  intro range
  induction range with
  | nil =>
    intro k hk _
    exact ⟨k, rfl, hk, fun h => h, by intro c _; simp⟩
  | cons b rest ih =>
    intro k hk hrange
    have hb := hrange b (List.mem_cons_self _ _)
    have hbn : b.toNat < 256 := by omega
    have hbcast : ((b.toNat : Nat) : Int) = b := Int.toNat_of_nonneg hb.1
    have hstep := tweakStep_eq offset k b hk hb.1 hb.2
    have hk1 : (if gate offset b.toNat then flipBit k b.toNat else k).length = 32 := by
      split
      · rw [flipBit_length]; exact hk
      · exact hk
    have hbytes1 : (∀ x ∈ k, x < 256) →
        ∀ x ∈ (if gate offset b.toNat then flipBit k b.toNat else k), x < 256 := by
      intro hbytes
      split
      · exact flipBit_bytes k _ hbytes
      · exact hbytes
    obtain ⟨k2, hfold, hlen, hb2, hbits⟩ :=
      ih _ hk1 (fun x hx => hrange x (List.mem_cons_of_mem _ hx))
    refine ⟨k2, ?_, hlen, fun h => hb2 (hbytes1 h), ?_⟩
    · rw [List.foldlM_cons, hstep]
      exact hfold
    · intro c hc
      rw [hbits c hc]
      have hk1bit : keyBit (if gate offset b.toNat then flipBit k b.toNat else k) c
          = xor (keyBit k c) (decide (c = b.toNat) && gate offset b.toNat) := by
        split
        · rename_i hg
          rw [keyBit_flipBit k _ c hk hbn, hg]; simp
        · rename_i hg
          simp [hg]
      rw [hk1bit, List.count_cons]
      by_cases hcb : c = b.toNat
      · have hci : (c : Int) = b := by omega
        rw [hci, ← hcb]
        simp only [beq_self_eq_true, if_true, decide_True, Bool.true_and]
        rcases Nat.mod_two_eq_zero_or_one (List.count b rest) with h | h
        · have h2 : (List.count b rest + 1) % 2 = 1 := by omega
          simp [h, h2]
        · have h2 : (List.count b rest + 1) % 2 = 0 := by omega
          simp [h, h2]
      · have : (b == (c : Int)) = false := by
          rw [beq_eq_false_iff_ne]
          intro h; apply hcb; omega
        simp [this, hcb]

/-- C2. For a 32-byte key, any offset and a duplicate-free tweak range with
entries in 0..255, `flashEncryptionTweakKey` returns a 32-byte key, and for
every bit index `b < 256`, bit `7 - b % 8` of byte `b / 8` of the result
differs from that bit of the master key exactly when `b` is in the tweak range
and bit `_FLASH_ENCRYPTION_TWEAK_PATTERN[b]` of the offset is set; the bits
from 8 upwards of every byte are unchanged, so no other bit changes. -/
theorem flashEncryptionTweakKey_bit_exact (key : List Nat) (offset : Int)
    (tweakRange : List Int) (hlen : key.length = 32) (hbytes : ∀ x ∈ key, x < 256)
    (hnodup : tweakRange.Nodup) (hrange : ∀ b ∈ tweakRange, 0 ≤ b ∧ b < 256) :
    ∃ tweaked, flashEncryptionTweakKey key offset tweakRange = some tweaked ∧
      tweaked.length = 32 ∧
      (∀ b, b < 256 →
        ((tweaked.getD (b / 8) 0).testBit (7 - b % 8) ≠ (key.getD (b / 8) 0).testBit (7 - b % 8)
          ↔ ((b : Int) ∈ tweakRange ∧
              offset.testBit (_FLASH_ENCRYPTION_TWEAK_PATTERN.getD b 0) = true))) ∧
      (∀ i j, 8 ≤ j → (tweaked.getD i 0).testBit j = (key.getD i 0).testBit j) := by
  obtain ⟨k2, hfold, hlen2, hbytes2, hbits⟩ := tweakFold_spec offset tweakRange key hlen hrange
  have hbytes2 := hbytes2 hbytes
  refine ⟨k2, hfold, hlen2, ?_, ?_⟩
  · intro b hb
    have h := hbits b hb
    unfold keyBit gate at h
    rw [h]
    by_cases hmem : (b : Int) ∈ tweakRange
    · have hc : List.count (b : Int) tweakRange = 1 := List.count_eq_one_of_mem hnodup hmem
      cases hk : (key.getD (b / 8) 0).testBit (7 - b % 8) <;>
        cases hg : offset.testBit (_FLASH_ENCRYPTION_TWEAK_PATTERN.getD b 0) <;>
        simp [hc, hmem]
    · have hc : List.count (b : Int) tweakRange = 0 := List.count_eq_zero_of_not_mem hmem
      simp [hc, hmem]
  · intro i j hj
    have hlt : ∀ (k : List Nat), (∀ x ∈ k, x < 256) → (k.getD i 0).testBit j = false := by
      intro k hk
      apply Nat.testBit_lt_two_pow
      have h1 : k.getD i 0 < 256 := by
        rw [List.getD_eq_getElem?_getD]
        cases hi : k[i]? with
        | none => simp
        | some x => exact hk x (List.getElem?_mem hi)
      calc k.getD i 0 < 2 ^ 8 := h1
        _ ≤ 2 ^ j := Nat.pow_le_pow_right (by norm_num) hj
    rw [hlt k2 hbytes2, hlt key hbytes]

/-- The example key at offset `0x210020` with the range `0, 2, 18, 255`. -/
theorem flashEncryptionTweakKey_bit_exact_witness :
    ∃ tweaked, flashEncryptionTweakKey exampleKey 0x210020 [0, 2, 18, 255] = some tweaked ∧
      tweaked.length = 32 ∧
      (∀ b, b < 256 →
        ((tweaked.getD (b / 8) 0).testBit (7 - b % 8)
            ≠ (exampleKey.getD (b / 8) 0).testBit (7 - b % 8)
          ↔ ((b : Int) ∈ ([0, 2, 18, 255] : List Int) ∧
              Int.testBit 0x210020 (_FLASH_ENCRYPTION_TWEAK_PATTERN.getD b 0) = true))) ∧
      (∀ i j, 8 ≤ j → (tweaked.getD i 0).testBit j = (exampleKey.getD i 0).testBit j) :=
  flashEncryptionTweakKey_bit_exact exampleKey 0x210020 [0, 2, 18, 255] (by decide) (by decide)
    (by decide) (by decide)

theorem tweakStep_congr (o1 o2 : Int) (k : List Nat) (bit : Int)
    (hagree : ∀ i, 5 ≤ i → i ≤ 23 → o1.testBit i = o2.testBit i) :
    tweakStep (offsetBits o1) k bit = tweakStep (offsetBits o2) k bit := by
  unfold tweakStep
  by_cases h0 : bit < 0
  · simp [h0]
  · rw [if_neg h0, if_neg h0]
    by_cases hb : bit.toNat < 256
    · obtain ⟨p, hp, h5, h23⟩ := pattern_getElem? bit.toNat hb
      rw [hp]
      simp only []
      rw [offsetBits_getElem? o1 p (by omega), offsetBits_getElem? o2 p (by omega),
        hagree p h5 h23]
    · rw [pattern_getElem?_none _ (by omega)]

theorem tweakFold_congr (o1 o2 : Int)
    (hagree : ∀ i, 5 ≤ i → i ≤ 23 → o1.testBit i = o2.testBit i) :
    ∀ (range : List Int) (k : List Nat),
      range.foldlM (tweakStep (offsetBits o1)) k = range.foldlM (tweakStep (offsetBits o2)) k := by
  intro range
  induction range with
  | nil => intro k; simp only [List.foldlM_nil]
  | cons b rest ih =>
    intro k
    rw [List.foldlM_cons, List.foldlM_cons, tweakStep_congr o1 o2 k b hagree]
    cases tweakStep (offsetBits o2) k b with
    | none => simp only [Option.bind_eq_bind, Option.none_bind]
    | some k1 => simp only [Option.bind_eq_bind, Option.some_bind]; exact ih k1

theorem int_testBit_add_five (o : Int) (i : Nat) : o.testBit (i + 5) = (o / 32).testBit i := by
  cases o with
  | ofNat m =>
    show Nat.testBit m (i + 5) = Int.testBit (((m / 32 : Nat) : Int)) i
    show Nat.testBit m (i + 5) = Nat.testBit (m / 32) i
    have : m / 32 = m >>> 5 := by rw [Nat.shiftRight_eq_div_pow]
    rw [this, Nat.testBit_shiftRight, Nat.add_comm]
  | negSucc m =>
    have h : (Int.negSucc m) / 32 = Int.negSucc (m / 32) := by
      rw [Int.negSucc_ediv _ (by norm_num)]
      rfl
    rw [h]
    show (!Nat.testBit m (i + 5)) = !Nat.testBit (m / 32) i
    have : m / 32 = m >>> 5 := by rw [Nat.shiftRight_eq_div_pow]
    rw [this, Nat.testBit_shiftRight, Nat.add_comm]

theorem agree_of_region (o1 o2 : Int) (h : o1 / 32 = o2 / 32) :
    ∀ i, 5 ≤ i → i ≤ 23 → o1.testBit i = o2.testBit i := by
  intro i h5 _
  obtain ⟨j, rfl⟩ : ∃ j, i = j + 5 := ⟨i - 5, by omega⟩
  rw [int_testBit_add_five, int_testBit_add_five, h]

/-- C3. The tweaked key depends only on bits 5..23 of the offset: two offsets
that agree on these bits give the same result of `flashEncryptionTweakKey`;
in particular two offsets in the same 32-byte aligned region (equal quotient
by 32, rounding down) do, and so do an offset and its region base
`o - o % 32` (`%` with a non-negative remainder). -/
theorem flashEncryptionTweakKey_region (key : List Nat) (tweakRange : List Int)
    (hrange : ∀ b ∈ tweakRange, 0 ≤ b ∧ b < 256) :
    (∀ o1 o2 : Int, (∀ i, 5 ≤ i → i ≤ 23 → o1.testBit i = o2.testBit i) →
      flashEncryptionTweakKey key o1 tweakRange = flashEncryptionTweakKey key o2 tweakRange) ∧
    (∀ o1 o2 : Int, o1 / 32 = o2 / 32 →
      flashEncryptionTweakKey key o1 tweakRange = flashEncryptionTweakKey key o2 tweakRange) ∧
    (∀ o : Int,
      flashEncryptionTweakKey key o tweakRange
        = flashEncryptionTweakKey key (o - o % 32) tweakRange) := by
  have _ := hrange
  refine ⟨fun o1 o2 h => tweakFold_congr o1 o2 h tweakRange key,
    fun o1 o2 h => tweakFold_congr o1 o2 (agree_of_region o1 o2 h) tweakRange key,
    fun o => tweakFold_congr _ _ (agree_of_region _ _ ?_) tweakRange key⟩
  omega


set_option maxRecDepth 100000 in
/-- The offsets `0x210000` and `0x210010` lie in one 32-byte region and give
the same key; so do `0x21001f` and its region base. -/
theorem flashEncryptionTweakKey_region_witness :
    flashEncryptionTweakKey exampleKey 0x210000 (intRange 0 256)
      = flashEncryptionTweakKey exampleKey 0x210010 (intRange 0 256) ∧
    flashEncryptionTweakKey exampleKey 0x21001f (intRange 0 256)
      = flashEncryptionTweakKey exampleKey (0x21001f - 0x21001f % 32) (intRange 0 256) :=
  ⟨(flashEncryptionTweakKey_region exampleKey (intRange 0 256)
      (fun b hb => by have := mem_intRange 0 256 b hb; omega)).2.1 0x210000 0x210010
      (by decide),
   (flashEncryptionTweakKey_region exampleKey (intRange 0 256)
      (fun b hb => by have := mem_intRange 0 256 b hb; omega)).2.2 0x21001f⟩

/-! ## reverse -/

theorem tmod_eq_zero_iff (a b : Int) : a.tmod b = 0 ↔ a % b = 0 := by
  rw [← Int.dvd_iff_tmod_eq_zero, Int.dvd_iff_emod_eq_zero]

theorem reverseLoop_spec :
    ∀ (fuel : Nat) (pre mid post : List Nat), mid.length ≤ 2 * fuel + 1 →
      reverseLoop fuel (pre ++ mid ++ post) pre.length (pre.length + mid.length - 1)
        = pre ++ mid.reverse ++ post := by
  intro fuel
  induction fuel with
  | zero =>
    intro pre mid post h
    match mid, h with
    | [], _ => simp [reverseLoop]
    | [x], _ => simp [reverseLoop]
  | succ fuel ih =>
    intro pre mid post h
    unfold reverseLoop
    match mid, h with
    | [], _ => simp
    | [x], _ => simp
    | x :: y :: rest, h =>
      obtain ⟨mid2, z, hz⟩ : ∃ mid2 z, y :: rest = mid2 ++ [z] := by
        rcases List.eq_nil_or_concat (y :: rest) with h1 | ⟨l, a, h1⟩
        · simp at h1
        · exact ⟨l, a, by simpa using h1⟩
      rw [hz]
      have hlen : mid2.length + 1 = rest.length + 1 := by
        have := congrArg List.length hz
        simpa using this.symm
      have hij : pre.length < pre.length + (x :: (mid2 ++ [z])).length - 1 := by
        simp
      rw [if_pos hij]
      have hj : pre.length + (x :: (mid2 ++ [z])).length - 1 = (pre ++ x :: mid2).length := by
        simp
      have hgetj : (pre ++ x :: (mid2 ++ [z]) ++ post).getD
          (pre.length + (x :: (mid2 ++ [z])).length - 1) 0 = z := by
        rw [hj]
        have : pre ++ x :: (mid2 ++ [z]) ++ post = (pre ++ x :: mid2) ++ (z :: post) := by simp
        rw [this, List.getD_append_right _ _ _ _ (le_refl _)]
        simp
      have hgeti : (pre ++ x :: (mid2 ++ [z]) ++ post).getD pre.length 0 = x := by
        have : pre ++ x :: (mid2 ++ [z]) ++ post = pre ++ (x :: (mid2 ++ [z] ++ post)) := by simp
        rw [this, List.getD_append_right _ _ _ _ (le_refl _)]
        simp
      rw [hgetj, hgeti]
      have hset : ((pre ++ x :: (mid2 ++ [z]) ++ post).set pre.length z).set
          (pre.length + (x :: (mid2 ++ [z])).length - 1) x
          = (pre ++ [z]) ++ mid2 ++ (x :: post) := by
        rw [hj]
        have h1 : pre ++ x :: (mid2 ++ [z]) ++ post = pre ++ (x :: (mid2 ++ [z] ++ post)) := by
          simp
        rw [h1, List.set_append_right _ _ (le_refl _)]
        simp only [Nat.sub_self, List.set_cons_zero]
        have h2 : pre ++ z :: (mid2 ++ [z] ++ post) = (pre ++ z :: mid2) ++ (z :: post) := by
          simp
        have h3 : (pre ++ x :: mid2).length = (pre ++ z :: mid2).length := by simp
        rw [h2, h3, List.set_append_right _ _ (le_refl _)]
        simp
      rw [hset]
      have hi2 : pre.length + 1 = (pre ++ [z]).length := by simp
      have hj2 : pre.length + (x :: (mid2 ++ [z])).length - 1 - 1
          = (pre ++ [z]).length + mid2.length - 1 := by
        simp
      rw [hi2, hj2, ih (pre ++ [z]) mid2 (x :: post) (by simp at h; omega)]
      simp

/-- `reverse` is list reversal. -/
theorem reverse_eq (b : List Nat) : reverse b = b.reverse := by
  have h := reverseLoop_spec b.length [] b [] (by omega)
  simpa [reverse] using h

theorem reverse_length (b : List Nat) : (reverse b).length = b.length := by
  rw [reverse_eq, List.length_reverse]



/-! ## The transform loop -/

theorem flashEncryptionTweakKey_some (key : List Nat) (off : Int) (tweakRange : List Int)
    (hkey : key.length = 32) (hrange : ∀ b ∈ tweakRange, 0 ≤ b ∧ b < 256) :
    flashEncryptionTweakKey key off tweakRange = some (blockKey key tweakRange off) ∧
      (blockKey key tweakRange off).length = 32 := by
  obtain ⟨k2, hfold, hlen, _, _⟩ := tweakFold_spec off tweakRange key hkey hrange
  have h : flashEncryptionTweakKey key off tweakRange = some k2 := hfold
  unfold blockKey
  rw [h]
  exact ⟨rfl, hlen⟩

theorem rekey_eq (key : List Nat) (off : Int) (tweakRange : List Int) (aes : Option (List Nat))
    (hkey : key.length = 32) (hrange : ∀ b ∈ tweakRange, 0 ≤ b ∧ b < 256)
    (hinv : AesInv key tweakRange aes off) :
    rekey key off tweakRange aes = .ok (blockKey key tweakRange off) := by
  obtain ⟨hsome, hlen⟩ := flashEncryptionTweakKey_some key off tweakRange hkey hrange
  have hderive : (match flashEncryptionTweakKey key off tweakRange with
      | none => Outcome.panic
      | some blockKey => NewCipher blockKey) = .ok (blockKey key tweakRange off) := by
    rw [hsome]
    simp [NewCipher, hlen]
  unfold rekey
  by_cases h32 : off.tmod 32 = 0
  · simp only [h32, decide_True]
    exact hderive
  · cases aes with
    | none =>
      simp only [h32, decide_False]
      exact hderive
    | some c =>
      simp only [h32, decide_False]
      rcases hinv with h | h | h
      · exact absurd h (by simp)
      · exact absurd ((tmod_eq_zero_iff off 32).mpr h) h32
      · rw [Option.some.inj h]

theorem cryptBlock_eq (P : Primitives) (aes : List Nat) (doDecrypt : Bool) (block : List Nat)
    (h : 16 ≤ block.length) :
    cryptBlock P aes doDecrypt block = .ok (cryptBytes P aes doDecrypt block) := by
  unfold cryptBlock cryptInPlace cryptBytes
  have : ¬ (reverse block).length < 16 := by rw [reverse_length]; omega
  simp only [this, if_false]

theorem cryptBytes_length (P : Primitives) (aes : List Nat) (doDecrypt : Bool)
    (block : List Nat) (h : 16 ≤ block.length) :
    (cryptBytes P aes doDecrypt block).length = block.length := by
  unfold cryptBytes
  have h16 : ((reverse block).take 16).length = 16 := by
    rw [List.length_take, reverse_length]; omega
  rw [reverse_length, List.length_append, List.length_drop, reverse_length]
  cases doDecrypt
  · simp only [Bool.false_eq_true, if_false]
    rw [P.Decrypt_length _ _ h16]; omega
  · simp only [if_true]
    rw [P.Encrypt_length _ _ h16]; omega

/-- On one full block `cryptBytes` is reverse, cipher, reverse. -/
theorem cryptBytes_block (P : Primitives) (aes : List Nat) (doDecrypt : Bool)
    (block : List Nat) (h : block.length = 16) :
    cryptBytes P aes doDecrypt block
      = ((if doDecrypt then P.Encrypt aes else P.Decrypt aes) block.reverse).reverse := by
  unfold cryptBytes
  rw [reverse_eq, reverse_eq]
  have h1 : block.reverse.take 16 = block.reverse := by
    apply List.take_of_length_le; simp [h]
  have h2 : block.reverse.drop 16 = [] := by
    apply List.drop_of_length_le; simp [h]
  rw [h1, h2, List.append_nil]

theorem transformLoop_eof (P : Primitives) (key : List Nat) (A : Int) (tweakRange : List Int)
    (doDecrypt : Bool) (fuel : Nat) (data : List Nat) (pos calls : Nat)
    (aes : Option (List Nat)) (B : List Nat) (L : List (List Nat)) (h : data.length ≤ pos) :
    transformLoop P key A tweakRange doDecrypt (fuel + 1) ⟨⟨data, pos, calls, none⟩, aes, B, L⟩
      = (.ok (), ⟨⟨data, pos, calls + 2, none⟩, aes, B, L⟩) := by
  simp [transformLoop, getInputFilePosition, InputFile.Seek, InputFile.Read, h]

theorem transformLoop_short_decrypt (P : Primitives) (key : List Nat) (A : Int)
    (tweakRange : List Int) (fuel : Nat) (data : List Nat) (pos calls : Nat)
    (aes : Option (List Nat)) (B : List Nat) (L : List (List Nat)) (h : pos < data.length)
    (hshort : data.length < pos + 16) :
    transformLoop P key A tweakRange true (fuel + 1) ⟨⟨data, pos, calls, none⟩, aes, B, L⟩
      = (.error .shortBlock,
          ⟨⟨data, pos + ((data.drop pos).take 16).length, calls + 2, none⟩, aes, B, L⟩) := by
  have hn : ((data.drop pos).take 16).length < 16 := by
    rw [List.length_take, List.length_drop]; omega
  have hle : ¬ data.length ≤ pos := by omega
  conv => lhs; unfold transformLoop
  simp only [getInputFilePosition, InputFile.Seek, InputFile.Read, hle, if_false,
    reduceCtorEq]
  rw [if_pos ⟨hn, trivial⟩]

theorem transformLoop_block (P : Primitives) (key : List Nat) (A : Int)
    (tweakRange : List Int) (doDecrypt : Bool) (fuel : Nat) (data : List Nat) (pos calls : Nat)
    (aes : Option (List Nat)) (B : List Nat) (L : List (List Nat)) (k : List Nat)
    (h : pos < data.length)
    (hdir : ¬ (((data.drop pos).take 16).length < 16 ∧ doDecrypt = true))
    (hkey : rekey key (A + (pos : Int)) tweakRange aes = .ok k) :
    transformLoop P key A tweakRange doDecrypt (fuel + 1) ⟨⟨data, pos, calls, none⟩, aes, B, L⟩
      = transformLoop P key A tweakRange doDecrypt fuel
          ⟨⟨data, pos + ((data.drop pos).take 16).length, calls + 2, none⟩, some k,
            B ++ cryptBytes P k doDecrypt
              (if ((data.drop pos).take 16).length < 16 then
                (data.drop pos).take 16
                  ++ List.replicate (16 - ((data.drop pos).take 16).length) 0
                  ++ List.replicate (16 - ((data.drop pos).take 16).length) 0
              else (data.drop pos).take 16
                  ++ List.replicate (16 - ((data.drop pos).take 16).length) 0),
            L ++ [k]⟩ := by
  have hblock : 16 ≤ (if ((data.drop pos).take 16).length < 16 then
                (data.drop pos).take 16
                  ++ List.replicate (16 - ((data.drop pos).take 16).length) 0
                  ++ List.replicate (16 - ((data.drop pos).take 16).length) 0
              else (data.drop pos).take 16
                  ++ List.replicate (16 - ((data.drop pos).take 16).length) 0).length := by
    split
    · simp; omega
    · simp
  have hc := cryptBlock_eq P k doDecrypt _ hblock
  have hle : ¬ data.length ≤ pos := by omega
  conv => lhs; unfold transformLoop
  simp only [getInputFilePosition, InputFile.Seek, InputFile.Read, hle, if_false, hkey,
    reduceCtorEq]
  rw [if_neg hdir]
  simp only [hc]

theorem blockKey_next (key : List Nat) (tweakRange : List Int) (off : Int)
    (h16 : off % 16 = 0) (h32 : (off + 16) % 32 ≠ 0) :
    blockKey key tweakRange (off + 16) = blockKey key tweakRange off := by
  unfold blockKey
  have h : flashEncryptionTweakKey key (off + 16) tweakRange
      = flashEncryptionTweakKey key off tweakRange :=
    tweakFold_congr _ _ (agree_of_region _ _ (by omega)) tweakRange key
  rw [h]

theorem aesInv_next (key : List Nat) (tweakRange : List Int) (off : Int)
    (h16 : off % 16 = 0) :
    AesInv key tweakRange (some (blockKey key tweakRange off)) (off + 16) := by
  by_cases h32 : (off + 16) % 32 = 0
  · exact Or.inr (Or.inl h32)
  · exact Or.inr (Or.inr (by rw [blockKey_next key tweakRange off h16 h32]))

/-- The loop on an input that does not fail: `m` full blocks `X` and a rest
`tail` of fewer than 16 bytes, from a state that is in step with the offset. -/
theorem transformLoop_run (P : Primitives) (key : List Nat) (A : Int) (tweakRange : List Int)
    (doDecrypt : Bool) (hkey : key.length = 32)
    (hrange : ∀ b ∈ tweakRange, 0 ≤ b ∧ b < 256) :
    ∀ (m fuel : Nat) (pre X tail : List Nat) (calls : Nat) (aes : Option (List Nat))
      (B : List Nat) (L : List (List Nat)),
      X.length = 16 * m → tail.length < 16 → X.length + tail.length + 1 ≤ fuel →
      (A + (pre.length : Int)) % 16 = 0 → AesInv key tweakRange aes (A + (pre.length : Int)) →
      ∃ s, transformLoop P key A tweakRange doDecrypt fuel
            ⟨⟨pre ++ X ++ tail, pre.length, calls, none⟩, aes, B, L⟩
          = (if tail ≠ [] ∧ doDecrypt = true then .error .shortBlock else .ok (), s) ∧
        s.outputFileBuffer
          = B ++ transformBlocks P key tweakRange doDecrypt m (A + (pre.length : Int)) X
              ++ (if tail = [] ∨ doDecrypt = true then []
                  else shortBlock P key tweakRange (A + (pre.length : Int) + 16 * (m : Int)) tail) ∧
        s.keyLog
          = L ++ blockKeys key tweakRange m (A + (pre.length : Int))
              ++ (if tail = [] ∨ doDecrypt = true then []
                  else [blockKey key tweakRange (A + (pre.length : Int) + 16 * (m : Int))]) ∧
        s.inputFile.data = pre ++ X ++ tail ∧ s.inputFile.failAt = none := by
  intro m
  induction m with
  | zero =>
    intro fuel pre X tail calls aes B L hX htail hfuel h16 hinv
    have hX0 : X = [] := List.length_eq_zero.mp (by omega)
    subst hX0
    obtain ⟨f, rfl⟩ : ∃ f, fuel = f + 1 := ⟨fuel - 1, by omega⟩
    cases tail with
    | nil =>
      rw [transformLoop_eof _ _ _ _ _ _ _ _ _ _ _ _ (by simp)]
      exact ⟨_, Prod.ext (by simp) rfl, by simp [transformBlocks], by simp [blockKeys],
        rfl, rfl⟩
    | cons t ts =>
      have hdrop : ((pre ++ [] ++ t :: ts).drop pre.length).take 16 = t :: ts := by
        simp only [List.append_nil, List.drop_left]
        exact List.take_of_length_le (by omega)
      have hpos : pre.length < (pre ++ [] ++ t :: ts).length := by simp
      cases doDecrypt with
      | true =>
        rw [transformLoop_short_decrypt _ _ _ _ _ _ _ _ _ _ _ hpos (by simp at htail ⊢; omega)]
        exact ⟨_, Prod.ext (by simp) rfl, by simp [transformBlocks], by simp [blockKeys],
          rfl, rfl⟩
      | false =>
        obtain ⟨f2, rfl⟩ : ∃ f2, f = f2 + 1 := ⟨f - 1, by simp at hfuel; omega⟩
        rw [transformLoop_block P key A tweakRange false _ _ _ _ _ _ _ _ hpos (by simp)
          (rekey_eq key _ tweakRange aes hkey hrange hinv)]
        rw [hdrop, if_pos htail, transformLoop_eof _ _ _ _ _ _ _ _ _ _ _ _ (by simp)]
        exact ⟨_, Prod.ext (by simp) rfl, by simp [transformBlocks, shortBlock],
          by simp [blockKeys], rfl, rfl⟩
  | succ m ih =>
    intro fuel pre X tail calls aes B L hX htail hfuel h16 hinv
    obtain ⟨f, rfl⟩ : ∃ f, fuel = f + 1 := ⟨fuel - 1, by omega⟩
    have hpos : pre.length < (pre ++ X ++ tail).length := by simp; omega
    have hdrop : ((pre ++ X ++ tail).drop pre.length).take 16 = X.take 16 := by
      rw [List.append_assoc, List.drop_left, List.take_append_of_le_length (by omega)]
    have hlen16 : (X.take 16).length = 16 := by rw [List.length_take]; omega
    rw [transformLoop_block P key A tweakRange doDecrypt _ _ _ _ _ _ _ _ hpos
      (by rw [hdrop, hlen16]; simp) (rekey_eq key _ tweakRange aes hkey hrange hinv)]
    rw [hdrop, hlen16, if_neg (by omega)]
    simp only [Nat.sub_self, List.replicate_zero, List.append_nil]
    have hsplit : pre ++ X ++ tail = (pre ++ X.take 16) ++ X.drop 16 ++ tail := by
      simp [List.append_assoc]
    have hprelen : pre.length + 16 = (pre ++ X.take 16).length := by
      rw [List.length_append, hlen16]
    have hoff : A + ((pre ++ X.take 16).length : Int) = A + (pre.length : Int) + 16 := by
      rw [← hprelen]; push_cast; ring
    rw [hsplit, hprelen]
    obtain ⟨s, hrun, hbuf, hlog, hdata, hfail⟩ :=
      ih f (pre ++ X.take 16) (X.drop 16) tail (calls + 2)
        (some (blockKey key tweakRange (A + (pre.length : Int))))
        (B ++ cryptBytes P (blockKey key tweakRange (A + (pre.length : Int))) doDecrypt
          (X.take 16))
        (L ++ [blockKey key tweakRange (A + (pre.length : Int))])
        (by rw [List.length_drop]; omega) htail (by rw [List.length_drop]; omega)
        (by rw [hoff]; omega)
        (by rw [hoff]; exact aesInv_next key tweakRange _ h16)
    refine ⟨s, hrun, ?_, ?_, hdata, hfail⟩
    · rw [hbuf, hoff]
      have : A + (pre.length : Int) + 16 + 16 * (m : Int)
          = A + (pre.length : Int) + 16 * ((m + 1 : Nat) : Int) := by push_cast; ring
      rw [this]
      simp [transformBlocks, List.append_assoc]
    · rw [hlog, hoff]
      have : A + (pre.length : Int) + 16 + 16 * (m : Int)
          = A + (pre.length : Int) + 16 * ((m + 1 : Nat) : Int) := by push_cast; ring
      rw [this]
      simp [blockKeys, List.append_assoc]



/-! ## Tweak range, key loading, round trip of the blocks -/

set_option maxRecDepth 100000 in
theorem makeRange_calls :
    makeRange 67 [] = some (intRange 0 67) ∧ makeRange 67 [132] = some (intRange 67 132) ∧
    makeRange 132 [195] = some (intRange 132 195) ∧
    makeRange 195 [256] = some (intRange 195 256) := by
  decide

theorem flashEncryptionTweakRange_eq (flashCryptConfig : Int) :
    flashEncryptionTweakRange flashCryptConfig
      = some ((if Int.land flashCryptConfig 1 != 0 then intRange 0 67 else [])
          ++ (if Int.land flashCryptConfig 2 != 0 then intRange 67 132 else [])
          ++ (if Int.land flashCryptConfig 4 != 0 then intRange 132 195 else [])
          ++ (if Int.land flashCryptConfig 8 != 0 then intRange 195 256 else [])) := by
  obtain ⟨h1, h2, h3, h4⟩ := makeRange_calls
  unfold flashEncryptionTweakRange
  rw [h1, h2, h3, h4]
  cases (Int.land flashCryptConfig 1 != 0) <;> cases (Int.land flashCryptConfig 2 != 0) <;>
    cases (Int.land flashCryptConfig 4 != 0) <;> cases (Int.land flashCryptConfig 8 != 0) <;>
    simp

/-- For every mask the tweak range is defined and its entries are in 0..255. -/
theorem flashEncryptionTweakRange_some (flashCryptConfig : Int) :
    ∃ tweakRange, flashEncryptionTweakRange flashCryptConfig = some tweakRange ∧
      ∀ b ∈ tweakRange, 0 ≤ b ∧ b < 256 := by
  refine ⟨_, flashEncryptionTweakRange_eq flashCryptConfig, ?_⟩
  intro b hb
  simp only [List.mem_append] at hb
  rcases hb with ((hb | hb) | hb) | hb <;>
  · split at hb
    · have := mem_intRange _ _ _ hb
      omega
    · simp at hb

theorem loadHardwareKey_ok (kb : List Nat) (h : kb.length = 24 ∨ kb.length = 32) :
    ∃ key, loadHardwareKey kb = .ok key ∧ key.length = 32 := by
  unfold loadHardwareKey
  rcases h with h | h
  · refine ⟨kb ++ (kb.drop 8).take 8, ?_, ?_⟩
    · simp [h]
    · simp [h]
  · exact ⟨kb, by simp [h], h⟩

theorem cryptBytes_roundtrip (P : Primitives)
    (hinv : ∀ k b, b.length = 16 →
      P.Encrypt k (P.Decrypt k b) = b ∧ P.Decrypt k (P.Encrypt k b) = b)
    (aes : List Nat) (b : List Nat) (hb : b.length = 16) :
    cryptBytes P aes true (cryptBytes P aes false b) = b := by
  have h1 : (cryptBytes P aes false b).length = 16 := by
    rw [cryptBytes_length _ _ _ _ (by omega), hb]
  rw [cryptBytes_block P aes true _ h1, cryptBytes_block P aes false _ hb]
  simp only [if_true, Bool.false_eq_true, if_false, List.reverse_reverse]
  rw [(hinv aes b.reverse (by simp [hb])).1, List.reverse_reverse]

theorem transformBlocks_length (P : Primitives) (key : List Nat) (tweakRange : List Int)
    (doDecrypt : Bool) :
    ∀ (m : Nat) (off : Int) (X : List Nat), X.length = 16 * m →
      (transformBlocks P key tweakRange doDecrypt m off X).length = 16 * m := by
  intro m
  induction m with
  | zero => intro off X _; simp [transformBlocks]
  | succ m ih =>
    intro off X hX
    unfold transformBlocks
    rw [List.length_append, ih _ _ (by rw [List.length_drop]; omega),
      cryptBytes_length _ _ _ _ (by rw [List.length_take]; omega), List.length_take]
    omega

theorem transformBlocks_roundtrip (P : Primitives)
    (hinv : ∀ k b, b.length = 16 →
      P.Encrypt k (P.Decrypt k b) = b ∧ P.Decrypt k (P.Encrypt k b) = b)
    (key : List Nat) (tweakRange : List Int) :
    ∀ (m : Nat) (off : Int) (X : List Nat), X.length = 16 * m →
      transformBlocks P key tweakRange true m off
        (transformBlocks P key tweakRange false m off X) = X := by
  intro m
  induction m with
  | zero =>
    intro off X hX
    have : X = [] := List.length_eq_zero.mp (by omega)
    simp [transformBlocks, this]
  | succ m ih =>
    intro off X hX
    have ht : (X.take 16).length = 16 := by rw [List.length_take]; omega
    have hc : (cryptBytes P (blockKey key tweakRange off) false (X.take 16)).length = 16 := by
      rw [cryptBytes_length _ _ _ _ (by omega), ht]
    have hstep : transformBlocks P key tweakRange false (m + 1) off X
        = cryptBytes P (blockKey key tweakRange off) false (X.take 16)
          ++ transformBlocks P key tweakRange false m (off + 16) (X.drop 16) := rfl
    conv => lhs; unfold transformBlocks
    rw [hstep, List.take_left' hc, List.drop_left' hc, cryptBytes_roundtrip P hinv _ _ ht,
      ih _ _ (by rw [List.length_drop]; omega), List.take_append_drop]

/-! ## Whole runs of FlashEncryptionOperation -/

theorem drop_eq_nil_iff_mod (data : List Nat) :
    data.drop (16 * (data.length / 16)) = [] ↔ data.length % 16 = 0 := by
  rw [List.drop_eq_nil_iff]
  omega

/-- A run on a valid key, an aligned address and an input stream that does not
fail. -/
theorem FlashEncryptionOperation_run (P : Primitives) (outputFile : OutputFile)
    (data : List Nat) (A : Int) (keyFile : String) (kb key : List Nat) (hashkey : List Nat)
    (mask : Int) (tweakRange : List Int) (doDecrypt : Bool)
    (hhex : hexDecode keyFile.toList = some kb) (hload : loadHardwareKey kb = .ok key)
    (hkey : key.length = 32) (hA : A % 16 = 0)
    (hmask : flashEncryptionTweakRange mask = some tweakRange)
    (hrange : ∀ b ∈ tweakRange, 0 ≤ b ∧ b < 256) :
    (data.length % 16 ≠ 0 ∧ doDecrypt = true →
      (FlashEncryptionOperation P outputFile (.ofBytes data) A keyFile hashkey mask
          doDecrypt).ret = .error .shortBlock ∧
      (FlashEncryptionOperation P outputFile (.ofBytes data) A keyFile hashkey mask
          doDecrypt).outputFile = outputFile) ∧
    (¬ (data.length % 16 ≠ 0 ∧ doDecrypt = true) →
      (FlashEncryptionOperation P outputFile (.ofBytes data) A keyFile hashkey mask
          doDecrypt).ret = .ok () ∧
      (FlashEncryptionOperation P outputFile (.ofBytes data) A keyFile hashkey mask
          doDecrypt).outputFileBuffer = payloadOf P key tweakRange doDecrypt A data ∧
      (FlashEncryptionOperation P outputFile (.ofBytes data) A keyFile hashkey mask
          doDecrypt).outputFile
        = (outputFile.Write
            (container P hashkey (payloadOf P key tweakRange doDecrypt A data))).2) := by
  have hsplit : ([] : List Nat) ++ data.take (16 * (data.length / 16))
      ++ data.drop (16 * (data.length / 16)) = data := by simp
  obtain ⟨s, hrun, hbuf, _, _, _⟩ := transformLoop_run P key A tweakRange doDecrypt hkey hrange
    (data.length / 16) (data.length + 1) [] (data.take (16 * (data.length / 16)))
    (data.drop (16 * (data.length / 16))) 0 none [] []
    (by rw [List.length_take]; omega) (by rw [List.length_drop]; omega)
    (by rw [List.length_take, List.length_drop]; omega) (by simpa using hA) (Or.inl rfl)
  rw [hsplit] at hrun
  simp only [List.length_nil, Nat.cast_zero, add_zero, List.nil_append] at hrun hbuf
  have hA2 : ¬ A.tmod 16 ≠ 0 := by
    rw [not_not, tmod_eq_zero_iff]; exact hA
  have hne : (data.drop (16 * (data.length / 16)) ≠ []) ↔ data.length % 16 ≠ 0 :=
    not_congr (drop_eq_nil_iff_mod data)
  constructor
  · intro hc
    have hc2 : data.drop (16 * (data.length / 16)) ≠ [] ∧ doDecrypt = true :=
      ⟨hne.mpr hc.1, hc.2⟩
    rw [if_pos hc2] at hrun
    unfold FlashEncryptionOperation
    simp only [hhex, hload, hmask, if_neg hA2, InputFile.ofBytes] at hrun ⊢
    rw [hrun]
    exact ⟨rfl, rfl⟩
  · intro hc
    have hc2 : ¬ (data.drop (16 * (data.length / 16)) ≠ [] ∧ doDecrypt = true) := by
      intro h; exact hc ⟨hne.mp h.1, h.2⟩
    rw [if_neg hc2] at hrun
    unfold FlashEncryptionOperation
    simp only [hhex, hload, hmask, if_neg hA2, InputFile.ofBytes] at hrun ⊢
    rw [hrun]
    simp only [List.nil_append]
    rw [hbuf]
    exact ⟨trivial, rfl, rfl⟩



/-- How a call ends, seen from the sink: either it returned `nil` after one
`Write` of the container, or it did not return `nil` and the sink is
untouched. -/
theorem FlashEncryptionOperation_sink (P : Primitives) (outputFile : OutputFile)
    (inputFile : InputFile) (A : Int) (keyFile : String) (hashkey : List Nat) (mask : Int)
    (doDecrypt : Bool) :
    ((FlashEncryptionOperation P outputFile inputFile A keyFile hashkey mask doDecrypt).ret
        = .ok () ∧
      (FlashEncryptionOperation P outputFile inputFile A keyFile hashkey mask doDecrypt).outputFile
        = (outputFile.Write (container P hashkey
            (FlashEncryptionOperation P outputFile inputFile A keyFile hashkey mask
              doDecrypt).outputFileBuffer)).2) ∨
    ((FlashEncryptionOperation P outputFile inputFile A keyFile hashkey mask doDecrypt).ret
        ≠ .ok () ∧
      (FlashEncryptionOperation P outputFile inputFile A keyFile hashkey mask doDecrypt).outputFile
        = outputFile) := by
  unfold FlashEncryptionOperation
  split
  · right; exact ⟨by simp, rfl⟩
  · split
    · right; exact ⟨by simp, rfl⟩
    · right; exact ⟨by simp, rfl⟩
    · right; exact ⟨by simp, rfl⟩
    · split
      · right; exact ⟨by simp, rfl⟩
      · split
        · right; exact ⟨by simp, rfl⟩
        · split
          · right; exact ⟨by simp, rfl⟩
          · right; exact ⟨by simp, rfl⟩
          · right; exact ⟨by simp, rfl⟩
          · left; exact ⟨rfl, by simp [container]⟩



theorem toyPrimitives_inverse (k b : List Nat) (hb : b.length = 16) :
    toyPrimitives.Encrypt k (toyPrimitives.Decrypt k b) = b ∧
      toyPrimitives.Decrypt k (toyPrimitives.Encrypt k b) = b := by
  have hxor : ∀ l : List Nat, (l.map (fun x => x ^^^ k.headD 0)).map (fun x => x ^^^ k.headD 0)
      = l := by
    intro l
    rw [List.map_map]
    conv => rhs; rw [← List.map_id l]
    apply List.map_congr_left
    intro a _
    simp [Nat.xor_assoc]
  have hrot : ∀ l : List Nat, l.length = 16 → (l.rotate 15).rotate 1 = l ∧
      (l.rotate 1).rotate 15 = l := by
    intro l hl
    rw [List.rotate_rotate, List.rotate_rotate]
    have : l.rotate 16 = l := by rw [← hl, List.rotate_length]
    exact ⟨this, this⟩
  constructor
  · show (((b.rotate 15).map _).map _).rotate 1 = b
    rw [hxor, (hrot b hb).1]
  · show (((b.map _).rotate 1).rotate 15).map _ = b
    rw [(hrot _ (by simp [hb])).2, hxor]

set_option maxRecDepth 100000 in
theorem hexDecode_exampleKeyFile : hexDecode exampleKeyFile.toList = some exampleKey := by
  decide

theorem payloadOf_aligned (P : Primitives) (key : List Nat) (tweakRange : List Int)
    (doDecrypt : Bool) (A : Int) (data : List Nat) (h : data.length % 16 = 0) :
    payloadOf P key tweakRange doDecrypt A data
      = transformBlocks P key tweakRange doDecrypt (data.length / 16) A data := by
  unfold payloadOf
  rw [if_pos (Or.inl ((drop_eq_nil_iff_mod data).mpr h)), List.append_nil,
    List.take_of_length_le (by omega)]

/-- A run that encrypts, on a valid key, an aligned address and an input
stream that does not fail, returns `nil`. -/
theorem encrypt_returns_ok (P : Primitives) (outputFile : OutputFile) (flashAddress : Int)
    (keyFile : String) (keyBytes : List Nat) (hashkey : List Nat) (flashCryptConf : Int)
    (data : List Nat)
    (hhex : hexDecode keyFile.toList = some keyBytes)
    (hkey : keyBytes.length = 24 ∨ keyBytes.length = 32)
    (haddr : flashAddress % 16 = 0) :
    (FlashEncryptionOperation P outputFile (.ofBytes data) flashAddress keyFile hashkey
        flashCryptConf false).ret = .ok () := by
  obtain ⟨key, hload, hk32⟩ := loadHardwareKey_ok keyBytes hkey
  obtain ⟨tweakRange, hmask, hrange⟩ := flashEncryptionTweakRange_some flashCryptConf
  exact ((FlashEncryptionOperation_run P outputFile data flashAddress keyFile
    keyBytes key hashkey flashCryptConf tweakRange false hhex hload hk32 haddr hmask hrange).2
    (by simp)).1

/-- C1. Round trip: for a valid key (24 or 32 bytes), a flash address that is
a multiple of 16, a mask in 0..15 and a plaintext whose length is a multiple
of 16, the encrypting run `enc` returns `nil`, and the decrypting run `dec`
over the payload of `enc` (same key, address and mask) returns `nil` with the
plaintext as its payload, provided `Encrypt` and `Decrypt` of the block cipher
are mutually inverse on 16-byte blocks for each key. -/
theorem FlashEncryptionOperation_roundtrip (P : Primitives)
    (hinv : ∀ k b, b.length = 16 →
      P.Encrypt k (P.Decrypt k b) = b ∧ P.Decrypt k (P.Encrypt k b) = b)
    (out1 out2 : OutputFile) (flashAddress : Int) (keyFile : String) (keyBytes : List Nat)
    (hashkey1 hashkey2 : List Nat) (flashCryptConf : Int) (plaintext : List Nat)
    (enc dec : Run)
    (hhex : hexDecode keyFile.toList = some keyBytes)
    (hkey : keyBytes.length = 24 ∨ keyBytes.length = 32)
    (haddr : flashAddress % 16 = 0)
    (hconf : 0 ≤ flashCryptConf ∧ flashCryptConf ≤ 15)
    (hlen : plaintext.length % 16 = 0)
    (henc : enc = FlashEncryptionOperation P out1 (.ofBytes plaintext) flashAddress keyFile
        hashkey1 flashCryptConf false)
    (hdec : dec = FlashEncryptionOperation P out2 (.ofBytes enc.outputFileBuffer) flashAddress
        keyFile hashkey2 flashCryptConf true) :
    enc.ret = .ok () ∧ dec.ret = .ok () ∧ dec.outputFileBuffer = plaintext := by
  have _ := hconf
  obtain ⟨key, hload, hk32⟩ := loadHardwareKey_ok keyBytes hkey
  obtain ⟨tweakRange, hmask, hrange⟩ := flashEncryptionTweakRange_some flashCryptConf
  have hrun1 := (FlashEncryptionOperation_run P out1 plaintext flashAddress keyFile keyBytes key
    hashkey1 flashCryptConf tweakRange false hhex hload hk32 haddr hmask hrange).2 (by simp)
  rw [← henc] at hrun1
  obtain ⟨hret1, hbuf1, _⟩ := hrun1
  have hm : plaintext.length = 16 * (plaintext.length / 16) := by omega
  have hlen1 : (payloadOf P key tweakRange false flashAddress plaintext).length
      = plaintext.length := by
    rw [payloadOf_aligned _ _ _ _ _ _ hlen, transformBlocks_length _ _ _ _ _ _ _ hm]
    exact hm.symm
  rw [hbuf1] at hdec
  have hrun2 := (FlashEncryptionOperation_run P out2
    (payloadOf P key tweakRange false flashAddress plaintext) flashAddress keyFile keyBytes key
    hashkey2 flashCryptConf tweakRange true hhex hload hk32 haddr hmask hrange).2
    (by rw [hlen1]; simp [hlen])
  rw [← hdec] at hrun2
  obtain ⟨hret2, hbuf2, _⟩ := hrun2
  refine ⟨hret1, hret2, ?_⟩
  rw [hbuf2, payloadOf_aligned _ _ _ _ _ _ (by rw [hlen1]; exact hlen), hlen1,
    payloadOf_aligned _ _ _ _ _ _ hlen]
  exact transformBlocks_roundtrip P hinv key tweakRange _ _ _ hm

set_option maxRecDepth 100000 in
/-- The round trip on three blocks at the address `0x210010`, which is not a
multiple of 32. -/
theorem FlashEncryptionOperation_roundtrip_witness :
    (FlashEncryptionOperation toyPrimitives .empty
        (.ofBytes (FlashEncryptionOperation toyPrimitives .empty (.ofBytes (List.range 48))
          0x210010 exampleKeyFile [1, 2, 3] 15 false).outputFileBuffer)
        0x210010 exampleKeyFile [4, 5] 15 true).outputFileBuffer = List.range 48 :=
  (FlashEncryptionOperation_roundtrip toyPrimitives toyPrimitives_inverse .empty .empty 0x210010
    exampleKeyFile exampleKey [1, 2, 3] [4, 5] 15 (List.range 48) _ _ hexDecode_exampleKeyFile
    (by decide) (by decide) (by decide) (by decide) rfl rfl).2.2

theorem shortBlock_length (P : Primitives) (key : List Nat) (tweakRange : List Int) (off : Int)
    (tail : List Nat) (h : tail.length < 16) :
    (shortBlock P key tweakRange off tail).length = 32 - tail.length := by
  unfold shortBlock
  rw [cryptBytes_length _ _ _ _ (by simp; omega)]
  simp; omega

/-- C4 (what the code does). For a valid key, an aligned address, any mask and
an input whose length is not a multiple of 16, the encrypting run returns
`nil` and its payload has `16 * (len / 16) + (32 - len % 16)` bytes: the final
block is emitted with `32 - len % 16` bytes (17 to 31), not 16, and the
payload length is not a multiple of 16. -/
theorem short_block_payload_length (P : Primitives) (outputFile : OutputFile)
    (flashAddress : Int) (keyFile : String) (keyBytes : List Nat) (hashkey : List Nat)
    (flashCryptConf : Int) (data : List Nat)
    (hhex : hexDecode keyFile.toList = some keyBytes)
    (hkey : keyBytes.length = 24 ∨ keyBytes.length = 32)
    (haddr : flashAddress % 16 = 0) (hshort : data.length % 16 ≠ 0) :
    (FlashEncryptionOperation P outputFile (.ofBytes data) flashAddress keyFile hashkey
        flashCryptConf false).ret = .ok () ∧
    (FlashEncryptionOperation P outputFile (.ofBytes data) flashAddress keyFile hashkey
        flashCryptConf false).outputFileBuffer.length
      = 16 * (data.length / 16) + (32 - data.length % 16) ∧
    (FlashEncryptionOperation P outputFile (.ofBytes data) flashAddress keyFile hashkey
        flashCryptConf false).outputFileBuffer.length % 16 ≠ 0 := by
  obtain ⟨key, hload, hk32⟩ := loadHardwareKey_ok keyBytes hkey
  obtain ⟨tweakRange, hmask, hrange⟩ := flashEncryptionTweakRange_some flashCryptConf
  obtain ⟨hret, hbuf, _⟩ := (FlashEncryptionOperation_run P outputFile data flashAddress keyFile
    keyBytes key hashkey flashCryptConf tweakRange false hhex hload hk32 haddr hmask hrange).2
    (by simp)
  have hlen : (payloadOf P key tweakRange false flashAddress data).length
      = 16 * (data.length / 16) + (32 - data.length % 16) := by
    unfold payloadOf
    have hne : ¬ (data.drop (16 * (data.length / 16)) = [] ∨ false = true) := by
      rw [drop_eq_nil_iff_mod]; simp [hshort]
    rw [if_neg hne, List.length_append,
      transformBlocks_length _ _ _ _ _ _ _ (by rw [List.length_take]; omega),
      shortBlock_length _ _ _ _ _ (by rw [List.length_drop]; omega), List.length_drop]
    omega
  refine ⟨hret, ?_, ?_⟩
  · rw [hbuf, hlen]
  · rw [hbuf, hlen]; omega

/-- An input of 5 bytes gives a payload of 27 bytes. -/
theorem short_block_payload_length_witness :
    (FlashEncryptionOperation toyPrimitives .empty (.ofBytes [1, 2, 3, 4, 5]) 0x210000
        exampleKeyFile [] 15 false).ret = .ok () ∧
    (FlashEncryptionOperation toyPrimitives .empty (.ofBytes [1, 2, 3, 4, 5]) 0x210000
        exampleKeyFile [] 15 false).outputFileBuffer.length = 27 ∧
    (FlashEncryptionOperation toyPrimitives .empty (.ofBytes [1, 2, 3, 4, 5]) 0x210000
        exampleKeyFile [] 15 false).outputFileBuffer.length % 16 ≠ 0 :=
  short_block_payload_length toyPrimitives .empty 0x210000 exampleKeyFile exampleKey [] 15
    [1, 2, 3, 4, 5] hexDecode_exampleKeyFile (by decide) (by decide) (by decide)

theorem PutUint32_eq (n : Nat) (h : n < 2 ^ 32) :
    PutUint32 n = [n % 256, n / 256 % 256, n / 65536 % 256, n / 16777216 % 256] := by
  unfold PutUint32
  simp only [Nat.mod_eq_of_lt h, Nat.shiftRight_eq_div_pow]

theorem PutUint32_length (n : Nat) : (PutUint32 n).length = 4 := by
  simp [PutUint32]

theorem container_parts (P : Primitives) (hashkey payload : List Nat) :
    (container P hashkey payload).length = payload.length + 40 ∧
    (container P hashkey payload).take 4 = PutUint32 payload.length ∧
    ((container P hashkey payload).drop 4).take 4 = PutUint32 payload.length ∧
    ((container P hashkey payload).drop 8).take payload.length = payload ∧
    (container P hashkey payload).drop (8 + payload.length) = P.hmacSha256 hashkey payload := by
  have h4 := PutUint32_length payload.length
  have h32 := P.hmacSha256_length hashkey payload
  unfold container
  refine ⟨?_, ?_, ?_, ?_, ?_⟩
  · simp only [List.length_append, h4, h32]; omega
  · rw [List.append_assoc, List.append_assoc, List.take_left' h4]
  · rw [List.append_assoc, List.append_assoc, List.drop_left' h4, List.take_left' h4]
  · have h8 : (PutUint32 payload.length ++ PutUint32 payload.length).length = 8 := by
      rw [List.length_append, h4]
    rw [List.append_assoc, List.drop_left' h8, List.take_left' rfl]
  · have h8 : (PutUint32 payload.length ++ PutUint32 payload.length ++ payload).length
        = 8 + payload.length := by
      rw [List.length_append, List.length_append, h4]
    rw [List.drop_left' h8]

/-- C5. Container layout: when a run `r` returns `nil` with a payload of
`N < 2^32` bytes, the sink received one `Write` of a byte sequence `c` (which
is what a sink that does not fail then holds after its old contents) with:
`c` has `N + 40` bytes, its first 4 bytes are `N` in little-endian order,
bytes `8 .. 8 + N` are the payload, and the last 32 bytes are the HMAC-SHA256
primitive applied to the bytes of `hashkey` as key and the payload alone as
message. -/
theorem container_layout (P : Primitives) (outputFile : OutputFile) (inputFile : InputFile)
    (flashAddress : Int) (keyFile : String) (hashkey : List Nat) (flashCryptConf : Int)
    (doDecrypt : Bool) (r : Run)
    (hr : r = FlashEncryptionOperation P outputFile inputFile flashAddress keyFile hashkey
        flashCryptConf doDecrypt)
    (hok : r.ret = .ok ()) (hN : r.outputFileBuffer.length < 2 ^ 32) :
    ∃ c : List Nat,
      r.outputFile.writeCalls = outputFile.writeCalls ++ [c] ∧
      (outputFile.failAfter = none → r.outputFile.written = outputFile.written ++ c) ∧
      c.length = r.outputFileBuffer.length + 40 ∧
      c.take 4 =
        [r.outputFileBuffer.length % 256, r.outputFileBuffer.length / 256 % 256,
         r.outputFileBuffer.length / 65536 % 256,
         r.outputFileBuffer.length / 16777216 % 256] ∧
      (c.drop 8).take r.outputFileBuffer.length = r.outputFileBuffer ∧
      c.drop (8 + r.outputFileBuffer.length) = P.hmacSha256 hashkey r.outputFileBuffer ∧
      (c.drop (8 + r.outputFileBuffer.length)).length = 32 := by
  subst hr
  rcases FlashEncryptionOperation_sink P outputFile inputFile flashAddress keyFile hashkey
    flashCryptConf doDecrypt with ⟨_, hout⟩ | ⟨hne, _⟩
  · obtain ⟨h1, h2, _, h4, h5⟩ := container_parts P hashkey
      (FlashEncryptionOperation P outputFile inputFile flashAddress keyFile hashkey
        flashCryptConf doDecrypt).outputFileBuffer
    refine ⟨_, ?_, ?_, h1, ?_, h4, h5, ?_⟩
    · rw [hout]
      unfold OutputFile.Write
      cases outputFile.failAfter <;> rfl
    · intro hfail
      rw [hout]
      unfold OutputFile.Write
      rw [hfail]
    · rw [h2, PutUint32_eq _ hN]
    · rw [h5]; exact P.hmacSha256_length _ _
  · exact absurd hok hne

set_option maxRecDepth 100000 in
/-- The container of a run over 32 bytes. -/
theorem container_layout_witness :
    ∃ c : List Nat,
      (FlashEncryptionOperation toyPrimitives .empty (.ofBytes (List.range 32)) 0x210000
          exampleKeyFile [7] 15 false).outputFile.written = c ∧
      c.length = 72 ∧ c.take 4 = [32, 0, 0, 0] ∧
      (c.drop 8).take 32 = (FlashEncryptionOperation toyPrimitives .empty
          (.ofBytes (List.range 32)) 0x210000 exampleKeyFile [7] 15 false).outputFileBuffer ∧
      c.drop 40 = toyPrimitives.hmacSha256 [7] (FlashEncryptionOperation toyPrimitives .empty
          (.ofBytes (List.range 32)) 0x210000 exampleKeyFile [7] 15 false).outputFileBuffer := by
  obtain ⟨c, _, h2, h3, h4, h5, h6, _⟩ :=
    container_layout toyPrimitives .empty (.ofBytes (List.range 32)) 0x210000 exampleKeyFile
      [7] 15 false _ rfl (by decide) (by decide)
  have hlen : (FlashEncryptionOperation toyPrimitives .empty (.ofBytes (List.range 32))
      0x210000 exampleKeyFile [7] 15 false).outputFileBuffer.length = 32 := by decide
  rw [hlen] at h3 h4 h5 h6
  exact ⟨c, by simpa [OutputFile.empty] using h2 rfl, h3, h4, h5, h6⟩

/-- C6 (what the code does). When a run `r` returns `nil`, bytes `4 .. 8` of
the container it wrote are the little-endian payload length once more, the
same four bytes as bytes `0 .. 4`; the encoded version is not written. -/
theorem version_field_repeats_length (P : Primitives) (outputFile : OutputFile)
    (inputFile : InputFile) (flashAddress : Int) (keyFile : String) (hashkey : List Nat)
    (flashCryptConf : Int) (doDecrypt : Bool) (r : Run)
    (hr : r = FlashEncryptionOperation P outputFile inputFile flashAddress keyFile hashkey
        flashCryptConf doDecrypt)
    (hok : r.ret = .ok ()) :
    ∃ c : List Nat,
      r.outputFile.writeCalls = outputFile.writeCalls ++ [c] ∧
      (c.drop 4).take 4 = PutUint32 r.outputFileBuffer.length ∧
      (c.drop 4).take 4 = c.take 4 := by
  subst hr
  rcases FlashEncryptionOperation_sink P outputFile inputFile flashAddress keyFile hashkey
    flashCryptConf doDecrypt with ⟨_, hout⟩ | ⟨hne, _⟩
  · obtain ⟨_, h2, h3, _, _⟩ := container_parts P hashkey
      (FlashEncryptionOperation P outputFile inputFile flashAddress keyFile hashkey
        flashCryptConf doDecrypt).outputFileBuffer
    refine ⟨_, ?_, h3, by rw [h2, h3]⟩
    rw [hout]
    unfold OutputFile.Write
    cases outputFile.failAfter <;> rfl
  · exact absurd hok hne

set_option maxRecDepth 100000 in
/-- For a payload of 32 bytes, bytes `4 .. 8` are `32, 0, 0, 0`, while the
encoded version 405 is `149, 1, 0, 0`. -/
theorem version_field_repeats_length_witness :
    ∃ c : List Nat,
      (FlashEncryptionOperation toyPrimitives .empty (.ofBytes (List.range 32)) 0x210000
          exampleKeyFile [7] 15 false).outputFile.writeCalls = [c] ∧
      (c.drop 4).take 4 = [32, 0, 0, 0] ∧
      PutUint32 firmwareVersionTimes100 = [149, 1, 0, 0] := by
  obtain ⟨c, h1, h2, _⟩ :=
    version_field_repeats_length toyPrimitives .empty (.ofBytes (List.range 32)) 0x210000
      exampleKeyFile [7] 15 false _ rfl (by decide)
  have hlen : (FlashEncryptionOperation toyPrimitives .empty (.ofBytes (List.range 32))
      0x210000 exampleKeyFile [7] 15 false).outputFileBuffer.length = 32 := by decide
  rw [hlen] at h2
  exact ⟨c, by simpa [OutputFile.empty] using h1, by rw [h2]; decide, by decide⟩

/-- C7. Alignment on decrypt: for a valid key, an aligned address, any mask
and any input (on a stream that does not fail), the decrypting run returns an
error if and only if the input length is not a multiple of 16 (the error is
then `shortBlock`, and otherwise it returns `nil`), and the encrypting run
over the same input returns `nil`. -/
theorem decrypt_alignment (P : Primitives) (outputFile : OutputFile) (flashAddress : Int)
    (keyFile : String) (keyBytes : List Nat) (hashkey : List Nat) (flashCryptConf : Int)
    (data : List Nat)
    (hhex : hexDecode keyFile.toList = some keyBytes)
    (hkey : keyBytes.length = 24 ∨ keyBytes.length = 32)
    (haddr : flashAddress % 16 = 0) :
    ((∃ e, (FlashEncryptionOperation P outputFile (.ofBytes data) flashAddress keyFile hashkey
        flashCryptConf true).ret = .error e) ↔ data.length % 16 ≠ 0) ∧
    (data.length % 16 ≠ 0 →
      (FlashEncryptionOperation P outputFile (.ofBytes data) flashAddress keyFile hashkey
        flashCryptConf true).ret = .error .shortBlock) ∧
    (data.length % 16 = 0 →
      (FlashEncryptionOperation P outputFile (.ofBytes data) flashAddress keyFile hashkey
        flashCryptConf true).ret = .ok ()) ∧
    (FlashEncryptionOperation P outputFile (.ofBytes data) flashAddress keyFile hashkey
        flashCryptConf false).ret = .ok () := by
  obtain ⟨key, hload, hk32⟩ := loadHardwareKey_ok keyBytes hkey
  obtain ⟨tweakRange, hmask, hrange⟩ := flashEncryptionTweakRange_some flashCryptConf
  have hdec := FlashEncryptionOperation_run P outputFile data flashAddress keyFile
    keyBytes key hashkey flashCryptConf tweakRange true hhex hload hk32 haddr hmask hrange
  have hbad : data.length % 16 ≠ 0 →
      (FlashEncryptionOperation P outputFile (.ofBytes data) flashAddress keyFile hashkey
        flashCryptConf true).ret = .error .shortBlock := fun h => (hdec.1 ⟨h, rfl⟩).1
  have hgood : data.length % 16 = 0 →
      (FlashEncryptionOperation P outputFile (.ofBytes data) flashAddress keyFile hashkey
        flashCryptConf true).ret = .ok () := fun h => (hdec.2 (by simp [h])).1
  refine ⟨⟨?_, fun h => ⟨_, hbad h⟩⟩, hbad, hgood,
    encrypt_returns_ok P outputFile flashAddress keyFile keyBytes hashkey flashCryptConf data
      hhex hkey haddr⟩
  rintro ⟨e, he⟩ h0
  rw [hgood h0] at he
  exact absurd he (by simp)

set_option maxRecDepth 100000 in
/-- An input of 21 bytes: decrypting fails, encrypting returns `nil`. -/
theorem decrypt_alignment_witness :
    (FlashEncryptionOperation toyPrimitives .empty (.ofBytes (List.range 21)) 0x210000
        exampleKeyFile [7] 15 true).ret = .error .shortBlock ∧
    (FlashEncryptionOperation toyPrimitives .empty (.ofBytes (List.range 21)) 0x210000
        exampleKeyFile [7] 15 false).ret = .ok () :=
  have h := decrypt_alignment toyPrimitives .empty 0x210000 exampleKeyFile exampleKey [7] 15
    (List.range 21) hexDecode_exampleKeyFile (by decide) (by decide)
  ⟨h.2.1 (by decide), h.2.2.2⟩

/-- C8. Address validation: for a valid key, any mask, direction and input, a
flash address that is not a multiple of 16 makes the call return the
misaligned-address error with the input stream and the sink exactly as they
were (no `Seek`, `Read` or `Write` happened); a flash address that is a
multiple of 16 with `doDecrypt = false` makes it return `nil` for every input
(on a stream that does not fail). -/
theorem address_validation (P : Primitives) (outputFile : OutputFile) (inputFile : InputFile)
    (flashAddress : Int) (keyFile : String) (keyBytes : List Nat) (hashkey : List Nat)
    (flashCryptConf : Int) (doDecrypt : Bool) (data : List Nat)
    (hhex : hexDecode keyFile.toList = some keyBytes)
    (hkey : keyBytes.length = 24 ∨ keyBytes.length = 32) :
    (flashAddress % 16 ≠ 0 →
      FlashEncryptionOperation P outputFile inputFile flashAddress keyFile hashkey
          flashCryptConf doDecrypt
        = ⟨.error (.misalignedAddress flashAddress), inputFile, outputFile, [], []⟩) ∧
    (flashAddress % 16 = 0 →
      (FlashEncryptionOperation P outputFile (.ofBytes data) flashAddress keyFile hashkey
          flashCryptConf false).ret = .ok ()) := by
  obtain ⟨key, hload, hk32⟩ := loadHardwareKey_ok keyBytes hkey
  constructor
  · intro h
    have h2 : flashAddress.tmod 16 ≠ 0 := fun h0 => h ((tmod_eq_zero_iff _ _).mp h0)
    unfold FlashEncryptionOperation
    simp only [hhex, hload, if_pos h2]
  · intro h
    exact encrypt_returns_ok P outputFile flashAddress keyFile keyBytes hashkey flashCryptConf
      data hhex hkey h

set_option maxRecDepth 100000 in
/-- The addresses `0x210001` and `0x210000`. -/
theorem address_validation_witness :
    FlashEncryptionOperation toyPrimitives .empty (.ofBytes (List.range 21)) 0x210001
        exampleKeyFile [7] 15 false
      = ⟨.error (.misalignedAddress 0x210001), .ofBytes (List.range 21), .empty, [], []⟩ ∧
    (FlashEncryptionOperation toyPrimitives .empty (.ofBytes (List.range 21)) 0x210000
        exampleKeyFile [7] 15 false).ret = .ok () :=
  ⟨(address_validation toyPrimitives .empty (.ofBytes (List.range 21)) 0x210001 exampleKeyFile
      exampleKey [7] 15 false [] hexDecode_exampleKeyFile (by decide)).1 (by decide),
   (address_validation toyPrimitives .empty (.ofBytes []) 0x210000 exampleKeyFile
      exampleKey [7] 15 false (List.range 21) hexDecode_exampleKeyFile (by decide)).2
      (by decide)⟩

/-- C9. Atomicity on failure: for every combination of parameters, input
stream (failing or not) and sink, a run `r` that returns an error leaves the
sink as it was; and in every case the sink is either as it was or the run
returned `nil` after exactly one `Write`, of the complete container
(length, length, payload, tag). -/
theorem atomicity_on_failure (P : Primitives) (outputFile : OutputFile)
    (inputFile : InputFile) (flashAddress : Int) (keyFile : String) (hashkey : List Nat)
    (flashCryptConf : Int) (doDecrypt : Bool) (r : Run)
    (hr : r = FlashEncryptionOperation P outputFile inputFile flashAddress keyFile hashkey
        flashCryptConf doDecrypt) :
    (∀ e, r.ret = .error e → r.outputFile = outputFile) ∧
    (r.outputFile = outputFile ∨
      (r.ret = .ok () ∧
        r.outputFile.writeCalls
          = outputFile.writeCalls ++ [PutUint32 r.outputFileBuffer.length
              ++ PutUint32 r.outputFileBuffer.length ++ r.outputFileBuffer
              ++ P.hmacSha256 hashkey r.outputFileBuffer])) := by
  subst hr
  rcases FlashEncryptionOperation_sink P outputFile inputFile flashAddress keyFile hashkey
    flashCryptConf doDecrypt with ⟨hok, hout⟩ | ⟨hne, hout⟩
  · refine ⟨?_, Or.inr ⟨hok, ?_⟩⟩
    · intro e he
      rw [hok] at he
      exact absurd he (by simp)
    · rw [hout]
      unfold OutputFile.Write container
      cases outputFile.failAfter <;> rfl
  · exact ⟨fun _ _ => hout, Or.inl hout⟩

set_option maxRecDepth 100000 in
/-- A decrypting run over 21 bytes fails and leaves the sink as it was. -/
theorem atomicity_on_failure_witness :
    (FlashEncryptionOperation toyPrimitives ⟨[9], [[9]], none⟩ (.ofBytes (List.range 21))
        0x210000 exampleKeyFile [7] 15 true).ret = .error .shortBlock ∧
    (FlashEncryptionOperation toyPrimitives ⟨[9], [[9]], none⟩ (.ofBytes (List.range 21))
        0x210000 exampleKeyFile [7] 15 true).outputFile = ⟨[9], [[9]], none⟩ :=
  ⟨by decide,
   (atomicity_on_failure toyPrimitives ⟨[9], [[9]], none⟩ (.ofBytes (List.range 21)) 0x210000
      exampleKeyFile [7] 15 true _ rfl).1 .shortBlock (by decide)⟩

/-- C10 (what the code does). For a valid key, an aligned address, any mask
and input, and a sink whose `Write` fails after `k` bytes: the `Write` of the
container reports an error, and the encrypting run returns `nil` all the
same. -/
theorem write_error_ignored (P : Primitives) (outputFile : OutputFile) (flashAddress : Int)
    (keyFile : String) (keyBytes : List Nat) (hashkey : List Nat) (flashCryptConf : Int)
    (data : List Nat) (k : Nat)
    (hhex : hexDecode keyFile.toList = some keyBytes)
    (hkey : keyBytes.length = 24 ∨ keyBytes.length = 32)
    (haddr : flashAddress % 16 = 0)
    (hfail : outputFile.failAfter = some k) :
    (outputFile.Write (PutUint32 (FlashEncryptionOperation P outputFile (.ofBytes data)
          flashAddress keyFile hashkey flashCryptConf false).outputFileBuffer.length
        ++ PutUint32 (FlashEncryptionOperation P outputFile (.ofBytes data)
          flashAddress keyFile hashkey flashCryptConf false).outputFileBuffer.length
        ++ (FlashEncryptionOperation P outputFile (.ofBytes data)
          flashAddress keyFile hashkey flashCryptConf false).outputFileBuffer
        ++ P.hmacSha256 hashkey (FlashEncryptionOperation P outputFile (.ofBytes data)
          flashAddress keyFile hashkey flashCryptConf false).outputFileBuffer)).1
      = some .io ∧
    (FlashEncryptionOperation P outputFile (.ofBytes data) flashAddress keyFile hashkey
        flashCryptConf false).ret = .ok () := by
  refine ⟨?_, encrypt_returns_ok P outputFile flashAddress keyFile keyBytes hashkey
    flashCryptConf data hhex hkey haddr⟩
  unfold OutputFile.Write
  rw [hfail]

set_option maxRecDepth 100000 in
/-- A sink that accepts no byte: the run returns `nil` and nothing is written. -/
theorem write_error_ignored_witness :
    (FlashEncryptionOperation toyPrimitives ⟨[], [], some 0⟩ (.ofBytes (List.range 32))
        0x210000 exampleKeyFile [7] 15 false).ret = .ok () ∧
    (FlashEncryptionOperation toyPrimitives ⟨[], [], some 0⟩ (.ofBytes (List.range 32))
        0x210000 exampleKeyFile [7] 15 false).outputFile.written = [] :=
  ⟨(write_error_ignored toyPrimitives ⟨[], [], some 0⟩ 0x210000 exampleKeyFile exampleKey [7]
      15 (List.range 32) 0 hexDecode_exampleKeyFile (by decide) (by decide) rfl).2,
   by decide⟩

/-! ## Traces of whole runs, block by block -/

/-- The payload and the key log of a run on a valid key, an aligned address and
an input stream that does not fail, whether it returns `nil` or stops at a
short block. -/
theorem FlashEncryptionOperation_trace (P : Primitives) (outputFile : OutputFile)
    (data : List Nat) (A : Int) (keyFile : String) (kb key : List Nat) (hashkey : List Nat)
    (mask : Int) (tweakRange : List Int) (doDecrypt : Bool)
    (hhex : hexDecode keyFile.toList = some kb) (hload : loadHardwareKey kb = .ok key)
    (hkey : key.length = 32) (hA : A % 16 = 0)
    (hmask : flashEncryptionTweakRange mask = some tweakRange)
    (hrange : ∀ b ∈ tweakRange, 0 ≤ b ∧ b < 256) :
    (FlashEncryptionOperation P outputFile (.ofBytes data) A keyFile hashkey mask
        doDecrypt).outputFileBuffer = payloadOf P key tweakRange doDecrypt A data ∧
    (FlashEncryptionOperation P outputFile (.ofBytes data) A keyFile hashkey mask
        doDecrypt).keyLog = keysOf key tweakRange doDecrypt A data := by
  have hsplit : ([] : List Nat) ++ data.take (16 * (data.length / 16))
      ++ data.drop (16 * (data.length / 16)) = data := by simp
  obtain ⟨s, hrun, hbuf, hlog, _, _⟩ := transformLoop_run P key A tweakRange doDecrypt hkey
    hrange (data.length / 16) (data.length + 1) [] (data.take (16 * (data.length / 16)))
    (data.drop (16 * (data.length / 16))) 0 none [] []
    (by rw [List.length_take]; omega) (by rw [List.length_drop]; omega)
    (by rw [List.length_take, List.length_drop]; omega) (by simpa using hA) (Or.inl rfl)
  rw [hsplit] at hrun
  simp only [List.length_nil, Nat.cast_zero, add_zero, List.nil_append] at hrun hbuf hlog
  have hA2 : ¬ A.tmod 16 ≠ 0 := by
    rw [not_not, tmod_eq_zero_iff]; exact hA
  unfold payloadOf keysOf
  rw [← hbuf, ← hlog]
  unfold FlashEncryptionOperation
  by_cases hc : data.drop (16 * (data.length / 16)) ≠ [] ∧ doDecrypt = true
  · rw [if_pos hc] at hrun
    simp only [hhex, hload, hmask, if_neg hA2, InputFile.ofBytes] at hrun ⊢
    rw [hrun]
    exact ⟨rfl, rfl⟩
  · rw [if_neg hc] at hrun
    simp only [hhex, hload, hmask, if_neg hA2, InputFile.ofBytes] at hrun ⊢
    rw [hrun]
    exact ⟨rfl, rfl⟩

theorem blockKeys_length (key : List Nat) (tweakRange : List Int) :
    ∀ (m : Nat) (off : Int), (blockKeys key tweakRange m off).length = m := by
  intro m
  induction m with
  | zero => intro off; rfl
  | succ m ih => intro off; simp [blockKeys, ih]

theorem blockKeys_getElem? (key : List Nat) (tweakRange : List Int) :
    ∀ (m : Nat) (off : Int) (i : Nat), i < m →
      (blockKeys key tweakRange m off)[i]? = some (blockKey key tweakRange (off + 16 * (i : Int))) := by
  intro m
  induction m with
  | zero => intro off i hi; omega
  | succ m ih =>
    intro off i hi
    cases i with
    | zero => simp [blockKeys]
    | succ i =>
      simp only [blockKeys, List.getElem?_cons_succ]
      rw [ih (off + 16) i (by omega)]
      congr 2
      push_cast
      ring

theorem keysOf_length (key : List Nat) (tweakRange : List Int) (doDecrypt : Bool) (A : Int)
    (data : List Nat) :
    (keysOf key tweakRange doDecrypt A data).length
      = data.length / 16 + (if data.length % 16 = 0 ∨ doDecrypt = true then 0 else 1) := by
  unfold keysOf
  rw [List.length_append, blockKeys_length]
  by_cases hc : data.length % 16 = 0 ∨ doDecrypt = true
  · have hc2 : data.drop (16 * (data.length / 16)) = [] ∨ doDecrypt = true :=
      hc.imp (drop_eq_nil_iff_mod data).mpr id
    rw [if_pos hc, if_pos hc2]; rfl
  · have hc2 : ¬ (data.drop (16 * (data.length / 16)) = [] ∨ doDecrypt = true) :=
      fun h => hc (h.imp (drop_eq_nil_iff_mod data).mp id)
    rw [if_neg hc, if_neg hc2]; rfl

theorem keysOf_getElem? (key : List Nat) (tweakRange : List Int) (doDecrypt : Bool) (A : Int)
    (data : List Nat) (i : Nat) (hi : i < (keysOf key tweakRange doDecrypt A data).length) :
    (keysOf key tweakRange doDecrypt A data)[i]?
      = some (blockKey key tweakRange (A + 16 * (i : Int))) := by
  rw [keysOf_length] at hi
  unfold keysOf
  by_cases him : i < data.length / 16
  · rw [List.getElem?_append_left (by rw [blockKeys_length]; exact him)]
    exact blockKeys_getElem? key tweakRange _ A i him
  · rw [List.getElem?_append_right (by rw [blockKeys_length]; omega), blockKeys_length]
    by_cases hc : data.length % 16 = 0 ∨ doDecrypt = true
    · rw [if_pos hc] at hi
      omega
    · rw [if_neg hc] at hi
      have hc2 : ¬ (data.drop (16 * (data.length / 16)) = [] ∨ doDecrypt = true) :=
        fun h => hc (h.imp (drop_eq_nil_iff_mod data).mp id)
      have hi2 : i = data.length / 16 := by omega
      rw [if_neg hc2, hi2]
      simp

theorem transformBlocks_append (P : Primitives) (key : List Nat) (tweakRange : List Int)
    (doDecrypt : Bool) :
    ∀ (m1 m2 : Nat) (off : Int) (X Y : List Nat), X.length = 16 * m1 →
      transformBlocks P key tweakRange doDecrypt (m1 + m2) off (X ++ Y)
        = transformBlocks P key tweakRange doDecrypt m1 off X
          ++ transformBlocks P key tweakRange doDecrypt m2 (off + 16 * (m1 : Int)) Y := by
  intro m1
  induction m1 with
  | zero =>
    intro m2 off X Y hX
    have : X = [] := List.length_eq_zero.mp (by omega)
    subst this
    simp [transformBlocks]
  | succ m1 ih =>
    intro m2 off X Y hX
    have e : m1 + 1 + m2 = (m1 + m2) + 1 := by omega
    rw [e]
    simp only [transformBlocks]
    rw [List.take_append_of_le_length (by omega), List.drop_append_of_le_length (by omega),
      ih m2 (off + 16) (X.drop 16) Y (by rw [List.length_drop]; omega), List.append_assoc]
    congr 3
    push_cast
    ring

theorem transformBlocks_block (P : Primitives) (key : List Nat) (tweakRange : List Int)
    (doDecrypt : Bool) :
    ∀ (m : Nat) (off : Int) (X : List Nat) (i : Nat), X.length = 16 * m → i < m →
      ((transformBlocks P key tweakRange doDecrypt m off X).drop (16 * i)).take 16
        = cryptBytes P (blockKey key tweakRange (off + 16 * (i : Int))) doDecrypt
            ((X.drop (16 * i)).take 16) := by
  intro m
  induction m with
  | zero => intro off X i _ hi; omega
  | succ m ih =>
    intro off X i hX hi
    have ht : (X.take 16).length = 16 := by rw [List.length_take]; omega
    have hc : (cryptBytes P (blockKey key tweakRange off) doDecrypt (X.take 16)).length = 16 := by
      rw [cryptBytes_length _ _ _ _ (by omega), ht]
    simp only [transformBlocks]
    cases i with
    | zero =>
      simp only [Nat.mul_zero, List.drop_zero, Nat.cast_zero, mul_zero, add_zero]
      rw [List.take_left' hc]
    | succ i =>
      have e : 16 * (i + 1) = 16 + 16 * i := by omega
      have eo : off + 16 + 16 * (i : Int) = off + 16 * ((i + 1 : Nat) : Int) := by
        push_cast; ring
      rw [e, ← List.drop_drop, ← List.drop_drop, List.drop_left' hc,
        ih (off + 16) (X.drop 16) i (by rw [List.length_drop]; omega) (by omega), eo]

/-! ## Key loading, pattern table, safety of the key derivation -/

/-- C11. Key extension: for a 24-byte key `K`, `loadHardwareKey` returns the
32-byte key `K ++ K[8:16]` (its first 24 bytes are `K`, its last 8 bytes are
bytes 8..15 of `K`); for a 32-byte key it returns the key unchanged. -/
theorem loadHardwareKey_extension (K : List Nat) :
    (K.length = 24 →
      ∃ key, loadHardwareKey K = .ok key ∧ key = K ++ (K.drop 8).take 8 ∧ key.length = 32 ∧
        key.take 24 = K ∧
        ∀ i, i < 8 → key[24 + i]? = K[8 + i]?) ∧
    (K.length = 32 → loadHardwareKey K = .ok K) := by
  constructor
  · intro h
    refine ⟨K ++ (K.drop 8).take 8, ?_, rfl, ?_, ?_, ?_⟩
    · simp [loadHardwareKey, h]
    · simp [h]
    · rw [← h, List.take_left]
    · intro i hi
      rw [List.getElem?_append_right (by omega), List.getElem?_take_of_lt (by omega),
        List.getElem?_drop, h]
      congr 1
      omega
  · intro h
    simp [loadHardwareKey, h]

/-- The key `0, 1, ..., 23` is extended by `8, ..., 15`; the example key is
returned as it is. -/
theorem loadHardwareKey_extension_witness :
    loadHardwareKey (List.range 24)
      = .ok (List.range 24 ++ [8, 9, 10, 11, 12, 13, 14, 15]) ∧
    loadHardwareKey exampleKey = .ok exampleKey := by
  obtain ⟨key, h1, h2, _⟩ := (loadHardwareKey_extension (List.range 24)).1 (by decide)
  refine ⟨?_, (loadHardwareKey_extension exampleKey).2 (by decide)⟩
  rw [h1, h2]
  decide

/-- C12. Key length validation: `loadHardwareKey` succeeds if and only if the
raw key has 24 or 32 bytes, a key it returns has exactly 32 bytes, and every
other length yields the key-length error. -/
theorem loadHardwareKey_length_validation (raw : List Nat) :
    ((∃ key, loadHardwareKey raw = .ok key) ↔ (raw.length = 24 ∨ raw.length = 32)) ∧
    (∀ key, loadHardwareKey raw = .ok key → key.length = 32) ∧
    (raw.length ≠ 24 → raw.length ≠ 32 →
      loadHardwareKey raw = .error (.keyLength raw.length)) := by
  have herr : raw.length ≠ 24 → raw.length ≠ 32 →
      loadHardwareKey raw = .error (.keyLength raw.length) := by
    intro h1 h2
    simp [loadHardwareKey, h1, h2]
  refine ⟨⟨?_, ?_⟩, ?_, herr⟩
  · rintro ⟨key, hk⟩
    by_contra hne
    rw [not_or] at hne
    rw [herr hne.1 hne.2] at hk
    exact absurd hk (by simp)
  · intro h
    obtain ⟨key, hk, _⟩ := loadHardwareKey_ok raw h
    exact ⟨key, hk⟩
  · intro key hk
    by_cases h : raw.length = 24 ∨ raw.length = 32
    · obtain ⟨key2, hk2, hlen⟩ := loadHardwareKey_ok raw h
      rw [hk2] at hk
      cases hk
      exact hlen
    · rw [not_or] at h
      rw [herr h.1 h.2] at hk
      exact absurd hk (by simp)

/-- The lengths 0 and 16 are rejected; a 24-byte key gives 32 bytes. -/
theorem loadHardwareKey_length_validation_witness :
    loadHardwareKey [] = .error (.keyLength 0) ∧
    loadHardwareKey (List.replicate 16 0) = .error (.keyLength 16) ∧
    (∀ key, loadHardwareKey (List.range 24) = .ok key → key.length = 32) :=
  ⟨(loadHardwareKey_length_validation []).2.2 (by decide) (by decide),
   (loadHardwareKey_length_validation (List.replicate 16 0)).2.2 (by decide) (by decide),
   (loadHardwareKey_length_validation (List.range 24)).2.1⟩

/-- C16. Pattern table shape: `_FLASH_ENCRYPTION_TWEAK_PATTERN` has exactly 256
entries and every entry `v` satisfies `5 ≤ v ≤ 23`. -/
theorem pattern_table_shape :
    _FLASH_ENCRYPTION_TWEAK_PATTERN.length = 256 ∧
    ∀ v ∈ _FLASH_ENCRYPTION_TWEAK_PATTERN, 5 ≤ v ∧ v ≤ 23 :=
  ⟨pattern_length, pattern_all_bounds⟩

set_option maxRecDepth 100000 in
/-- Entry 57 of the table, the first of its fourth row, is within the bounds. -/
theorem pattern_table_shape_witness :
    5 ≤ _FLASH_ENCRYPTION_TWEAK_PATTERN.getD 57 0 ∧
      _FLASH_ENCRYPTION_TWEAK_PATTERN.getD 57 0 ≤ 23 :=
  pattern_table_shape.2 (_FLASH_ENCRYPTION_TWEAK_PATTERN.getD 57 0) (by decide)

/-- C19. Index safety of key derivation: for every integer mask, every offset
(negative ones included) and every key of length 32, the tweak range is
defined and `flashEncryptionTweakKey` on it does not panic (no index outside
the pattern table, the 24 offset flags or the key), its result has length 32,
and `NewCipher` accepts it. -/
theorem key_derivation_index_safe (flashCryptConf : Int) (offset : Int) (key : List Nat)
    (hkey : key.length = 32) :
    ∃ tweakRange blockKey,
      flashEncryptionTweakRange flashCryptConf = some tweakRange ∧
      flashEncryptionTweakKey key offset tweakRange = some blockKey ∧
      blockKey.length = 32 ∧ NewCipher blockKey = .ok blockKey := by
  obtain ⟨tweakRange, hmask, hrange⟩ := flashEncryptionTweakRange_some flashCryptConf
  obtain ⟨hsome, hlen⟩ := flashEncryptionTweakKey_some key offset tweakRange hkey hrange
  exact ⟨tweakRange, _, hmask, hsome, hlen, by simp [NewCipher, hlen]⟩

set_option maxRecDepth 100000 in
/-- The mask `-3` and the offset `-5` on the example key. -/
theorem key_derivation_index_safe_witness :
    ∃ tweakRange blockKey,
      flashEncryptionTweakRange (-3) = some tweakRange ∧
      flashEncryptionTweakKey exampleKey (-5) tweakRange = some blockKey ∧
      blockKey.length = 32 ∧ NewCipher blockKey = .ok blockKey :=
  key_derivation_index_safe (-3) (-5) exampleKey (by decide)

/-! ## The tweak range -/

theorem mem_intRange_iff (a b : Nat) (x : Int) : x ∈ intRange a b ↔ (a : Int) ≤ x ∧ x < b := by
  constructor
  · exact mem_intRange a b x
  · intro ⟨h1, h2⟩
    unfold intRange
    rw [List.mem_map]
    refine ⟨x.toNat, ?_, ?_⟩
    · rw [List.mem_range'_1]; omega
    · simp only [Int.ofNat_eq_coe]; omega

theorem intRange_pairwise (a b : Nat) : (intRange a b).Pairwise (· < ·) := by
  unfold intRange
  rw [List.pairwise_map]
  exact (List.pairwise_lt_range' a (b - a)).imp (by intro x y h; simp only [Int.ofNat_eq_coe]; omega)

theorem intRange_append (a b c : Nat) (hab : a ≤ b) (hbc : b ≤ c) :
    intRange a b ++ intRange b c = intRange a c := by
  unfold intRange
  rw [← List.map_append]
  have h2 : List.range' b (c - b) = List.range' (a + (b - a)) (c - b) := by
    rw [Nat.add_sub_cancel' hab]
  rw [h2, List.range'_append_1, show (c - b) + (b - a) = c - a by omega]

theorem ite_sublist (c : Bool) (l : List Int) :
    List.Sublist (if c = true then l else []) l := by
  cases c
  · simp
  · simp

theorem tweakRange_sublist (m : Int) :
    List.Sublist
      ((if Int.land m 1 != 0 then intRange 0 67 else [])
        ++ (if Int.land m 2 != 0 then intRange 67 132 else [])
        ++ (if Int.land m 4 != 0 then intRange 132 195 else [])
        ++ (if Int.land m 8 != 0 then intRange 195 256 else []))
      (intRange 0 256) := by
  have h : intRange 0 256
      = intRange 0 67 ++ intRange 67 132 ++ intRange 132 195 ++ intRange 195 256 := by
    rw [intRange_append 0 67 132 (by omega) (by omega),
      intRange_append 0 132 195 (by omega) (by omega),
      intRange_append 0 195 256 (by omega) (by omega)]
  rw [h]
  exact (((ite_sublist _ _).append (ite_sublist _ _)).append (ite_sublist _ _)).append
    (ite_sublist _ _)

set_option maxRecDepth 100000 in
theorem flashEncryptionTweakRange_zero_fifteen :
    flashEncryptionTweakRange 0 = some [] ∧
    flashEncryptionTweakRange 15 = some ((List.range 256).map Int.ofNat) := by
  decide

/-- C13. Bit-range expansion: for a mask `m` in 0..15,
`flashEncryptionTweakRange m` is a strictly increasing, duplicate-free list
whose members are exactly the `b` with (`0 ≤ b < 67` and `m&1 != 0`) or
(`67 ≤ b < 132` and `m&2 != 0`) or (`132 ≤ b < 195` and `m&4 != 0`) or
(`195 ≤ b < 256` and `m&8 != 0`); mask 0 gives the empty list and mask 15
gives `0, 1, ..., 255`. -/
theorem flashEncryptionTweakRange_expansion (m : Int) (hm : 0 ≤ m ∧ m ≤ 15) :
    ∃ r, flashEncryptionTweakRange m = some r ∧
      r.Pairwise (· < ·) ∧ r.Nodup ∧
      (∀ b : Int, b ∈ r ↔
        ((0 ≤ b ∧ b < 67 ∧ Int.land m 1 ≠ 0) ∨ (67 ≤ b ∧ b < 132 ∧ Int.land m 2 ≠ 0) ∨
          (132 ≤ b ∧ b < 195 ∧ Int.land m 4 ≠ 0) ∨ (195 ≤ b ∧ b < 256 ∧ Int.land m 8 ≠ 0))) ∧
      (m = 0 → r = []) ∧
      (m = 15 → r = (List.range 256).map Int.ofNat) := by
  have _ := hm
  have hpw := (intRange_pairwise 0 256).sublist (tweakRange_sublist m)
  refine ⟨_, flashEncryptionTweakRange_eq m, hpw, hpw.imp (fun h => ne_of_lt h), ?_, ?_, ?_⟩
  · intro b
    simp only [List.mem_append]
    have e : ∀ (c : Bool) (lo hi : Nat),
        (b ∈ (if c = true then intRange lo hi else [])) ↔ ((lo : Int) ≤ b ∧ b < hi ∧ c = true) := by
      intro c lo hi
      cases c
      · simp
      · simp [mem_intRange_iff]
    rw [e, e, e, e]
    simp only [bne_iff_ne, ne_eq, Nat.cast_ofNat, Nat.cast_zero, or_assoc]
  · intro h0
    subst h0
    have h := flashEncryptionTweakRange_zero_fifteen.1
    rw [flashEncryptionTweakRange_eq] at h
    exact Option.some.inj h
  · intro h15
    subst h15
    have h := flashEncryptionTweakRange_zero_fifteen.2
    rw [flashEncryptionTweakRange_eq] at h
    exact Option.some.inj h

set_option maxRecDepth 100000 in
/-- The masks 0, 15 and 2. -/
theorem flashEncryptionTweakRange_expansion_witness :
    flashEncryptionTweakRange 0 = some [] ∧
    flashEncryptionTweakRange 15 = some ((List.range 256).map Int.ofNat) ∧
    flashEncryptionTweakRange 2 = some ((List.range' 67 65).map Int.ofNat) := by
  obtain ⟨r0, h0, _, _, _, e0, _⟩ := flashEncryptionTweakRange_expansion 0 (by decide)
  obtain ⟨r15, h15, _, _, _, _, e15⟩ := flashEncryptionTweakRange_expansion 15 (by decide)
  exact ⟨by rw [h0, e0 rfl], by rw [h15, e15 rfl], by decide⟩

/-! ## Order independence of the flips -/

theorem key_ext (k1 k2 : List Nat) (h1 : k1.length = 32) (h2 : k2.length = 32)
    (hb1 : ∀ x ∈ k1, x < 256) (hb2 : ∀ x ∈ k2, x < 256)
    (hbits : ∀ c, c < 256 → keyBit k1 c = keyBit k2 c) : k1 = k2 := by
  apply List.ext_getElem (by rw [h1, h2])
  intro i hi1 hi2
  apply Nat.eq_of_testBit_eq
  intro j
  by_cases hj : j < 8
  · have h := hbits (8 * i + (7 - j)) (by omega)
    unfold keyBit at h
    have e1 : (8 * i + (7 - j)) / 8 = i := by omega
    have e2 : 7 - (8 * i + (7 - j)) % 8 = j := by omega
    rw [e1, e2, List.getD_eq_getElem?_getD, List.getD_eq_getElem?_getD,
      List.getElem?_eq_getElem hi1, List.getElem?_eq_getElem hi2] at h
    exact h
  · have hlt : ∀ x, x < 256 → x.testBit j = false := by
      intro x hx
      apply Nat.testBit_lt_two_pow
      calc x < 2 ^ 8 := hx
        _ ≤ 2 ^ j := Nat.pow_le_pow_right (by norm_num) (by omega)
    rw [hlt _ (hb1 _ (List.getElem_mem hi1)), hlt _ (hb2 _ (List.getElem_mem hi2))]

/-- C17. Order independence of the flips: for a 32-byte key, any offset and two
tweak ranges with entries in 0..255 of which one is a permutation of the
other, `flashEncryptionTweakKey` gives the same result on both. -/
theorem flashEncryptionTweakKey_order_independent (key : List Nat) (offset : Int)
    (r r2 : List Int) (hlen : key.length = 32) (hbytes : ∀ x ∈ key, x < 256)
    (hrange : ∀ b ∈ r, 0 ≤ b ∧ b < 256) (hperm : r2.Perm r) :
    flashEncryptionTweakKey key offset r = flashEncryptionTweakKey key offset r2 := by
  obtain ⟨k1, hf1, hl1, hb1, hbits1⟩ := tweakFold_spec offset r key hlen hrange
  obtain ⟨k2, hf2, hl2, hb2, hbits2⟩ := tweakFold_spec offset r2 key hlen
    (fun b hb => hrange b (hperm.mem_iff.mp hb))
  have e1 : flashEncryptionTweakKey key offset r = some k1 := hf1
  have e2 : flashEncryptionTweakKey key offset r2 = some k2 := hf2
  rw [e1, e2]
  congr 1
  apply key_ext k1 k2 hl1 hl2 (hb1 hbytes) (hb2 hbytes)
  intro c hc
  rw [hbits1 c hc, hbits2 c hc, hperm.count_eq]

/-- A range with a repeated entry and a reordering of it. -/
theorem flashEncryptionTweakKey_order_independent_witness :
    flashEncryptionTweakKey exampleKey 0x210020 [0, 2, 18, 2, 255]
      = flashEncryptionTweakKey exampleKey 0x210020 [255, 2, 2, 18, 0] :=
  flashEncryptionTweakKey_order_independent exampleKey 0x210020 [0, 2, 18, 2, 255]
    [255, 2, 2, 18, 0] (by decide) (by decide) (by decide) (by decide)

/-! ## Re-keying cadence and the transform of each block -/

/-- C14 (amended). Re-keying cadence: for a valid key, a flash address that is a
multiple of 16, any mask and input (on a stream that does not fail), the key
log of the run has one key per block processed, and the keys used for blocks
`i` and `i + 1` are identical whenever the offset `flashAddress + 16 * i` of
block `i` is a multiple of 32; so when the flash address is a multiple of 32,
blocks `2k` and `2k + 1` use the same key, for every `k` such that both
exist. -/
theorem rekey_cadence (P : Primitives) (outputFile : OutputFile) (flashAddress : Int)
    (keyFile : String) (keyBytes : List Nat) (hashkey : List Nat) (flashCryptConf : Int)
    (doDecrypt : Bool) (data : List Nat) (r : Run)
    (hhex : hexDecode keyFile.toList = some keyBytes)
    (hkey : keyBytes.length = 24 ∨ keyBytes.length = 32)
    (haddr : flashAddress % 16 = 0)
    (hr : r = FlashEncryptionOperation P outputFile (.ofBytes data) flashAddress keyFile
        hashkey flashCryptConf doDecrypt) :
    r.keyLog.length
      = data.length / 16 + (if data.length % 16 = 0 ∨ doDecrypt = true then 0 else 1) ∧
    (∀ i, i + 1 < r.keyLog.length → (flashAddress + 16 * (i : Int)) % 32 = 0 →
      r.keyLog[i]? = r.keyLog[i + 1]?) ∧
    (flashAddress % 32 = 0 → ∀ k, 2 * k + 1 < r.keyLog.length →
      r.keyLog[2 * k]? = r.keyLog[2 * k + 1]?) := by
  obtain ⟨key, hload, hk32⟩ := loadHardwareKey_ok keyBytes hkey
  obtain ⟨tweakRange, hmask, hrange⟩ := flashEncryptionTweakRange_some flashCryptConf
  have hlog := (FlashEncryptionOperation_trace P outputFile data flashAddress keyFile keyBytes
    key hashkey flashCryptConf tweakRange doDecrypt hhex hload hk32 haddr hmask hrange).2
  rw [← hr] at hlog
  have hpair : ∀ i, i + 1 < r.keyLog.length → (flashAddress + 16 * (i : Int)) % 32 = 0 →
      r.keyLog[i]? = r.keyLog[i + 1]? := by
    intro i hi h32
    rw [hlog] at hi ⊢
    rw [keysOf_getElem? _ _ _ _ _ i (by omega), keysOf_getElem? _ _ _ _ _ (i + 1) hi]
    have e : flashAddress + 16 * ((i + 1 : Nat) : Int) = flashAddress + 16 * (i : Int) + 16 := by
      push_cast; ring
    rw [e, blockKey_next key tweakRange _ (by omega) (by omega)]
  refine ⟨by rw [hlog, keysOf_length], hpair, ?_⟩
  intro h32 k hk
  exact hpair (2 * k) hk (by push_cast; omega)

set_option maxRecDepth 100000 in
/-- At the address `0x210000`, blocks 2 and 3 of a four-block input use the
same key. -/
theorem rekey_cadence_witness :
    (FlashEncryptionOperation toyPrimitives .empty (.ofBytes (List.range 64)) 0x210000
        exampleKeyFile [] 15 false).keyLog[2]?
      = (FlashEncryptionOperation toyPrimitives .empty (.ofBytes (List.range 64)) 0x210000
        exampleKeyFile [] 15 false).keyLog[3]? :=
  (rekey_cadence toyPrimitives .empty 0x210000 exampleKeyFile exampleKey [] 15 false
    (List.range 64) _ hexDecode_exampleKeyFile (by decide) (by decide) rfl).2.2 (by decide) 1
    (by decide)

set_option maxRecDepth 100000 in
/-- C14 as stated fails: at the flash address `0x210010`, a multiple of 16, the
run over two blocks returns `nil` and the key used for block 0 (derived at
`0x210010`) differs from the key used for block 1 (derived at `0x210020`). -/
theorem rekey_cadence_counterexample :
    (0x210010 : Int) % 16 = 0 ∧
    (FlashEncryptionOperation toyPrimitives .empty (.ofBytes (List.range 32)) 0x210010
        exampleKeyFile [] 15 false).ret = .ok () ∧
    (FlashEncryptionOperation toyPrimitives .empty (.ofBytes (List.range 32)) 0x210010
        exampleKeyFile [] 15 false).keyLog.length = 2 ∧
    (FlashEncryptionOperation toyPrimitives .empty (.ofBytes (List.range 32)) 0x210010
        exampleKeyFile [] 15 false).keyLog[0]?
      ≠ (FlashEncryptionOperation toyPrimitives .empty (.ofBytes (List.range 32)) 0x210010
        exampleKeyFile [] 15 false).keyLog[1]? := by
  decide

/-- C15. Per-block transform with direction inversion: for a valid key, an
aligned flash address, any mask and an input whose length is a multiple of 16,
the run returns `nil`, the payload is as long as the input, and its `i`-th
16-byte block is `reverse (OP k_i (reverse b_i))`, where `b_i` is the `i`-th
input block, `k_i` is the key `flashEncryptionTweakKey` derives from the
master key at the block's own offset `flashAddress + 16 * i`, and `OP` is
`Decrypt` when `doDecrypt = false` and `Encrypt` when `doDecrypt = true`. -/
theorem per_block_transform (P : Primitives) (outputFile : OutputFile) (flashAddress : Int)
    (keyFile : String) (keyBytes : List Nat) (hashkey : List Nat) (flashCryptConf : Int)
    (doDecrypt : Bool) (data : List Nat) (r : Run) (i : Nat)
    (hhex : hexDecode keyFile.toList = some keyBytes)
    (hkey : keyBytes.length = 24 ∨ keyBytes.length = 32)
    (haddr : flashAddress % 16 = 0)
    (hlen : data.length % 16 = 0)
    (hi : 16 * (i + 1) ≤ data.length)
    (hr : r = FlashEncryptionOperation P outputFile (.ofBytes data) flashAddress keyFile
        hashkey flashCryptConf doDecrypt) :
    ∃ masterKey tweakRange k_i,
      loadHardwareKey keyBytes = .ok masterKey ∧
      flashEncryptionTweakRange flashCryptConf = some tweakRange ∧
      flashEncryptionTweakKey masterKey (flashAddress + 16 * (i : Int)) tweakRange = some k_i ∧
      r.ret = .ok () ∧
      r.outputFileBuffer.length = data.length ∧
      (r.outputFileBuffer.drop (16 * i)).take 16
        = reverse ((if doDecrypt then P.Encrypt k_i else P.Decrypt k_i)
            (reverse ((data.drop (16 * i)).take 16))) := by
  obtain ⟨key, hload, hk32⟩ := loadHardwareKey_ok keyBytes hkey
  obtain ⟨tweakRange, hmask, hrange⟩ := flashEncryptionTweakRange_some flashCryptConf
  obtain ⟨hret, hbuf, _⟩ := (FlashEncryptionOperation_run P outputFile data flashAddress keyFile
    keyBytes key hashkey flashCryptConf tweakRange doDecrypt hhex hload hk32 haddr hmask
    hrange).2 (by simp [hlen])
  rw [← hr] at hret hbuf
  have hm : data.length = 16 * (data.length / 16) := by omega
  have hb : ((data.drop (16 * i)).take 16).length = 16 := by
    rw [List.length_take, List.length_drop]; omega
  refine ⟨key, tweakRange, _, hload, hmask,
    (flashEncryptionTweakKey_some key _ tweakRange hk32 hrange).1, hret, ?_, ?_⟩
  · rw [hbuf, payloadOf_aligned _ _ _ _ _ _ hlen, transformBlocks_length _ _ _ _ _ _ _ hm]
    exact hm.symm
  · rw [hbuf, payloadOf_aligned _ _ _ _ _ _ hlen,
      transformBlocks_block P key tweakRange doDecrypt _ _ _ i hm (by omega),
      cryptBytes_block _ _ _ _ hb, reverse_eq, reverse_eq]

set_option maxRecDepth 100000 in
/-- Block 1 of a decrypting run over three blocks at the address `0x210010`. -/
theorem per_block_transform_witness :
    ∃ k_1,
      flashEncryptionTweakKey exampleKey (0x210010 + 16 * ((1 : Nat) : Int))
        ((List.range 256).map Int.ofNat) = some k_1 ∧
      ((FlashEncryptionOperation toyPrimitives .empty (.ofBytes (List.range 48)) 0x210010
          exampleKeyFile [] 15 true).outputFileBuffer.drop (16 * 1)).take 16
        = reverse (toyPrimitives.Encrypt k_1
            (reverse (((List.range 48).drop (16 * 1)).take 16))) := by
  obtain ⟨mk, tr, k, h1, h2, h3, _, _, h6⟩ :=
    per_block_transform toyPrimitives .empty 0x210010 exampleKeyFile exampleKey [] 15 true
      (List.range 48) _ 1 hexDecode_exampleKeyFile (by decide) (by decide) (by decide)
      (by decide) rfl
  have e1 : mk = exampleKey := by
    have : loadHardwareKey exampleKey = .ok exampleKey := by decide
    rw [this] at h1
    cases h1
    rfl
  have e2 : tr = (List.range 256).map Int.ofNat := by
    rw [flashEncryptionTweakRange_zero_fifteen.2] at h2
    exact (Option.some.inj h2).symm
  subst e1 e2
  exact ⟨k, h3, h6⟩

/-! ## Splitting an input, and the zero mask -/

theorem payloadOf_append (P : Primitives) (key : List Nat) (tweakRange : List Int)
    (doDecrypt : Bool) (A : Int) (X Y : List Nat) (hX : X.length % 16 = 0) :
    payloadOf P key tweakRange doDecrypt A (X ++ Y)
      = payloadOf P key tweakRange doDecrypt A X
        ++ payloadOf P key tweakRange doDecrypt (A + (X.length : Int)) Y := by
  have hm : X.length = 16 * (X.length / 16) := by omega
  have hq : (X ++ Y).length / 16 = X.length / 16 + Y.length / 16 := by
    rw [List.length_append]; omega
  have htake : (X ++ Y).take (16 * ((X ++ Y).length / 16))
      = X ++ Y.take (16 * (Y.length / 16)) := by
    rw [hq, List.take_append_eq_append_take, List.take_of_length_le (by omega)]
    congr 2
    omega
  have hdrop : (X ++ Y).drop (16 * ((X ++ Y).length / 16))
      = Y.drop (16 * (Y.length / 16)) := by
    rw [hq, List.drop_append_eq_append_drop, List.drop_of_length_le (by omega), List.nil_append]
    congr 1
    omega
  have hoff : A + 16 * (((X ++ Y).length / 16 : Nat) : Int)
      = A + (X.length : Int) + 16 * ((Y.length / 16 : Nat) : Int) := by
    rw [hq]; push_cast; omega
  have hoff2 : A + 16 * ((X.length / 16 : Nat) : Int) = A + (X.length : Int) := by
    omega
  rw [payloadOf_aligned P key tweakRange doDecrypt A X hX]
  unfold payloadOf
  rw [htake, hdrop, hoff, hq,
    transformBlocks_append P key tweakRange doDecrypt _ _ A X _ hm, hoff2, List.append_assoc]

/-- C18. Splitting at a block boundary: for a valid key, any mask and
direction, an aligned flash address `A` and inputs `X`, `Y` with the length of
`X` a multiple of 16, if the run over `X ++ Y` at `A` returns `nil`, then so
do the run over `X` at `A` and the run over `Y` at `A + len(X)`, and the
payload of the first is the payload of the second followed by the payload of
the third (also when `X` is an odd number of blocks). -/
theorem split_at_block_boundary (P : Primitives) (outXY outX outY : OutputFile)
    (flashAddress : Int) (keyFile : String) (keyBytes : List Nat) (hashkey : List Nat)
    (flashCryptConf : Int) (doDecrypt : Bool) (X Y : List Nat) (rXY rX rY : Run)
    (hhex : hexDecode keyFile.toList = some keyBytes)
    (hkey : keyBytes.length = 24 ∨ keyBytes.length = 32)
    (haddr : flashAddress % 16 = 0)
    (hX : X.length % 16 = 0)
    (hXY : rXY = FlashEncryptionOperation P outXY (.ofBytes (X ++ Y)) flashAddress keyFile
        hashkey flashCryptConf doDecrypt)
    (hrX : rX = FlashEncryptionOperation P outX (.ofBytes X) flashAddress keyFile
        hashkey flashCryptConf doDecrypt)
    (hrY : rY = FlashEncryptionOperation P outY (.ofBytes Y) (flashAddress + (X.length : Int))
        keyFile hashkey flashCryptConf doDecrypt)
    (hok : rXY.ret = .ok ()) :
    rX.ret = .ok () ∧ rY.ret = .ok () ∧
      rXY.outputFileBuffer = rX.outputFileBuffer ++ rY.outputFileBuffer := by
  obtain ⟨key, hload, hk32⟩ := loadHardwareKey_ok keyBytes hkey
  obtain ⟨tweakRange, hmask, hrange⟩ := flashEncryptionTweakRange_some flashCryptConf
  have haddrY : (flashAddress + (X.length : Int)) % 16 = 0 := by omega
  have runXY := FlashEncryptionOperation_run P outXY (X ++ Y) flashAddress keyFile keyBytes key
    hashkey flashCryptConf tweakRange doDecrypt hhex hload hk32 haddr hmask hrange
  have runX := FlashEncryptionOperation_run P outX X flashAddress keyFile keyBytes key
    hashkey flashCryptConf tweakRange doDecrypt hhex hload hk32 haddr hmask hrange
  have runY := FlashEncryptionOperation_run P outY Y (flashAddress + (X.length : Int)) keyFile
    keyBytes key hashkey flashCryptConf tweakRange doDecrypt hhex hload hk32 haddrY hmask hrange
  rw [← hXY] at runXY
  rw [← hrX] at runX
  rw [← hrY] at runY
  have hgood : ¬ ((X ++ Y).length % 16 ≠ 0 ∧ doDecrypt = true) := by
    intro hbad
    rw [(runXY.1 hbad).1] at hok
    exact absurd hok (by simp)
  have hgoodY : ¬ (Y.length % 16 ≠ 0 ∧ doDecrypt = true) := by
    intro hbad
    apply hgood
    rw [List.length_append]
    exact ⟨by omega, hbad.2⟩
  obtain ⟨_, hbXY, _⟩ := runXY.2 hgood
  obtain ⟨hretX, hbX, _⟩ := runX.2 (by simp [hX])
  obtain ⟨hretY, hbY, _⟩ := runY.2 hgoodY
  exact ⟨hretX, hretY, by rw [hbXY, hbX, hbY, payloadOf_append _ _ _ _ _ _ _ hX]⟩

set_option maxRecDepth 100000 in
/-- A split after one block: the second run starts at `0x210010`. -/
theorem split_at_block_boundary_witness :
    (FlashEncryptionOperation toyPrimitives .empty
        (.ofBytes (List.range 16 ++ List.range 37)) 0x210000 exampleKeyFile [] 15
        false).outputFileBuffer
      = (FlashEncryptionOperation toyPrimitives .empty (.ofBytes (List.range 16)) 0x210000
          exampleKeyFile [] 15 false).outputFileBuffer
        ++ (FlashEncryptionOperation toyPrimitives .empty (.ofBytes (List.range 37))
          (0x210000 + ((List.range 16).length : Int)) exampleKeyFile [] 15
          false).outputFileBuffer :=
  (split_at_block_boundary toyPrimitives .empty .empty .empty 0x210000 exampleKeyFile
    exampleKey [] 15 false (List.range 16) (List.range 37) _ _ _ hexDecode_exampleKeyFile
    (by decide) (by decide) (by decide) rfl rfl rfl (by decide)).2.2

theorem blockKey_empty_range (key : List Nat) (off : Int) : blockKey key [] off = key := by
  simp [blockKey, flashEncryptionTweakKey, List.foldlM_nil]

theorem transformBlocks_empty_range (P : Primitives) (key : List Nat) (doDecrypt : Bool) :
    ∀ (m : Nat) (off1 off2 : Int) (X : List Nat),
      transformBlocks P key [] doDecrypt m off1 X = transformBlocks P key [] doDecrypt m off2 X := by
  intro m
  induction m with
  | zero => intro off1 off2 X; rfl
  | succ m ih =>
    intro off1 off2 X
    simp only [transformBlocks, blockKey_empty_range]
    rw [ih (off1 + 16) (off2 + 16)]

theorem blockKeys_empty_range (key : List Nat) :
    ∀ (m : Nat) (off1 off2 : Int), blockKeys key [] m off1 = blockKeys key [] m off2 := by
  intro m
  induction m with
  | zero => intro off1 off2; rfl
  | succ m ih =>
    intro off1 off2
    simp only [blockKeys, blockKey_empty_range]
    rw [ih (off1 + 16) (off2 + 16)]

theorem payloadOf_empty_range (P : Primitives) (key : List Nat) (doDecrypt : Bool)
    (A1 A2 : Int) (data : List Nat) :
    payloadOf P key [] doDecrypt A1 data = payloadOf P key [] doDecrypt A2 data := by
  unfold payloadOf shortBlock
  simp only [blockKey_empty_range]
  rw [transformBlocks_empty_range P key doDecrypt _ A1 A2]

theorem flashEncryptionTweakRange_zero : flashEncryptionTweakRange 0 = some [] :=
  flashEncryptionTweakRange_zero_fifteen.1

/-- C20. Zero mask disables tweaking: with `flashCryptConf = 0` the tweak range
is empty, `flashEncryptionTweakKey` on the empty range returns the key
unchanged for every offset, and for a valid key, any direction and input, two
runs at flash addresses that are multiples of 16 return the same value and
produce the same payload (and use the same keys). -/
theorem zero_mask_disables_tweaking (P : Primitives) (out1 out2 : OutputFile)
    (A1 A2 : Int) (keyFile : String) (keyBytes : List Nat) (hashkey : List Nat)
    (doDecrypt : Bool) (data : List Nat) (r1 r2 : Run)
    (hhex : hexDecode keyFile.toList = some keyBytes)
    (hkey : keyBytes.length = 24 ∨ keyBytes.length = 32)
    (haddr1 : A1 % 16 = 0) (haddr2 : A2 % 16 = 0)
    (hr1 : r1 = FlashEncryptionOperation P out1 (.ofBytes data) A1 keyFile hashkey 0 doDecrypt)
    (hr2 : r2 = FlashEncryptionOperation P out2 (.ofBytes data) A2 keyFile hashkey 0
        doDecrypt) :
    flashEncryptionTweakRange 0 = some [] ∧
    (∀ (key : List Nat) (offset : Int), flashEncryptionTweakKey key offset [] = some key) ∧
    r1.ret = r2.ret ∧ r1.outputFileBuffer = r2.outputFileBuffer ∧ r1.keyLog = r2.keyLog := by
  obtain ⟨key, hload, hk32⟩ := loadHardwareKey_ok keyBytes hkey
  have hmask := flashEncryptionTweakRange_zero
  have hrange : ∀ b ∈ ([] : List Int), 0 ≤ b ∧ b < 256 := by simp
  have run1 := FlashEncryptionOperation_run P out1 data A1 keyFile keyBytes key
    hashkey 0 [] doDecrypt hhex hload hk32 haddr1 hmask hrange
  have run2 := FlashEncryptionOperation_run P out2 data A2 keyFile keyBytes key
    hashkey 0 [] doDecrypt hhex hload hk32 haddr2 hmask hrange
  have tr1 := FlashEncryptionOperation_trace P out1 data A1 keyFile keyBytes key
    hashkey 0 [] doDecrypt hhex hload hk32 haddr1 hmask hrange
  have tr2 := FlashEncryptionOperation_trace P out2 data A2 keyFile keyBytes key
    hashkey 0 [] doDecrypt hhex hload hk32 haddr2 hmask hrange
  rw [← hr1] at run1 tr1
  rw [← hr2] at run2 tr2
  refine ⟨hmask, fun key offset => by simp [flashEncryptionTweakKey, List.foldlM_nil], ?_, ?_, ?_⟩
  · by_cases hbad : data.length % 16 ≠ 0 ∧ doDecrypt = true
    · rw [(run1.1 hbad).1, (run2.1 hbad).1]
    · rw [(run1.2 hbad).1, (run2.2 hbad).1]
  · rw [tr1.1, tr2.1, payloadOf_empty_range P key doDecrypt A1 A2]
  · rw [tr1.2, tr2.2]
    unfold keysOf
    simp only [blockKey_empty_range]
    rw [blockKeys_empty_range key _ A1 A2]

set_option maxRecDepth 100000 in
/-- The addresses `0x210000` and `0x10`. -/
theorem zero_mask_disables_tweaking_witness :
    (FlashEncryptionOperation toyPrimitives .empty (.ofBytes (List.range 37)) 0x210000
        exampleKeyFile [] 0 false).outputFileBuffer
      = (FlashEncryptionOperation toyPrimitives .empty (.ofBytes (List.range 37)) 0x10
        exampleKeyFile [] 0 false).outputFileBuffer :=
  (zero_mask_disables_tweaking toyPrimitives .empty .empty 0x210000 0x10 exampleKeyFile
    exampleKey [] false (List.range 37) _ _ hexDecode_exampleKeyFile (by decide) (by decide)
    (by decide) rfl rfl).2.2.2.1

end Ksecure
